import Mathlib

/-!
Verification of the `uargs` command-line argument parser (Go).

The definitions below are a shallow embedding of `parser.go`:
  * `ArgDef`, `ArgType`, `Parser` mirror the Go structs (Go's `Type` field is
    spelled `type'` since `Type` is a Lean keyword; the Go zero value `""` of
    `ArgType` behaves exactly like the `default` branch of the coercion
    switch, i.e. like `string`, so it is identified with `ArgType.string`).
  * Go maps (`map[string]ArgDef`, `map[string]string`, `map[string]interface{}`)
    are modelled as association lists with overwrite-on-insert (`mapInsert`)
    and first-match lookup (`mapLookup`); keys stay unique when built by
    `mapInsert`.  Go map iteration order is unspecified, so the final
    required-argument loop of `Parse` is parameterised by the iteration
    order (`checkRequired` applied to an arbitrary arrangement of the
    definition entries); the entry point `Parser.Parse` uses insertion order.
  * The token stream (`os.Args[1:]` in Go) is an explicit parameter.
  * Go `int` values fit in 64 bits; `goAtoi` models `strconv.Atoi` including
    its range check.  IEEE-754 float values are not interpreted: a coerced
    float is represented by its source token (`Value.float`), and
    `goParseFloatOk` models only the success/failure of `strconv.ParseFloat`
    (simplified to the decimal forms; no claim depends on which strings are
    accepted as floats).
-/

namespace Uargs

/-- `ArgType` from the source: the value type of an argument.  The Go type is
a string; every value other than `"int"` and `"float"` (including the zero
value `""`) takes the `default` branch of the coercion switch, so all of
them are represented by the `string` constructor. -/
inductive ArgType where
  | string
  | int
  | float
deriving DecidableEq

/-- `ArgDef` from the source.  Field defaults are the Go zero values. -/
structure ArgDef where
  Name : String := ""
  Short : String := ""
  Usage : String := ""
  NumArgs : Nat := 0
  Required : Bool := false
  OptionalIfGiven : List String := []
  AcceptOverArgs : Bool := false
  type' : ArgType := .string
deriving DecidableEq

instance : Inhabited ArgDef := ⟨{}⟩

/-- A parsed value stored in the result map (`map[string]interface{}` in Go):
either a bare scalar (when exactly one token was collected) or a list.
Floats are represented by their source tokens. -/
inductive Value where
  | str (s : String)
  | strList (l : List String)
  | int (n : Int)
  | intList (l : List Int)
  | float (tok : String)
  | floatList (toks : List String)
deriving DecidableEq

/-- The distinct error shapes produced by `Parse`/`collectArgs`
(each constructor corresponds to one `fmt.Errorf` call site, carrying the
same format arguments). -/
inductive ParseError where
  | duplicateLong (name : String)
  | unknownLong (name : String)
  | invalidShortForm (short : String)
  | duplicateShort (short : String) (name : String)
  | unknownShort (short : String)
  | unexpectedToken (tok : String)
  | tooManyArguments (name : String)
  | expectsInt (name : String) (tok : String)
  | expectsFloat (name : String) (tok : String)
  | missingRequired (name : String)
deriving DecidableEq

/-- Both `fmt.Errorf("duplicate argument ...")` call sites. -/
def ParseError.isDuplicateArgument : ParseError → Bool
  | .duplicateLong _ => true
  | .duplicateShort _ _ => true
  | _ => false

/-- The long name carried by a duplicate-argument error. -/
def ParseError.duplicatedName : ParseError → Option String
  | .duplicateLong n => some n
  | .duplicateShort _ n => some n
  | _ => none

/-- `strings.HasPrefix` (a byte-level prefix test in Go, equivalent to a
character-level prefix test whenever the prefix is ASCII, as `"--"` and
`"-"` are). -/
def goHasPrefix (s pre : String) : Bool :=
  pre.data.isPrefixOf s.data

/-- Go map assignment `m[k] = v`: overwrite the entry if the key is present,
otherwise add it. -/
def mapInsert {α : Type} : List (String × α) → String → α → List (String × α)
  | [], k, v => [(k, v)]
  | (k', v') :: rest, k, v =>
    if k' = k then (k, v) :: rest else (k', v') :: mapInsert rest k v

/-- Go map read `m[k]` returning `none` when absent. -/
def mapLookup {α : Type} : List (String × α) → String → Option α
  | [], _ => none
  | (k', v') :: rest, k => if k' = k then some v' else mapLookup rest k

/-- `Parser` from the source: the two registry maps and the accumulated
`parsed` map (which persists across calls of `Parse` on one instance). -/
structure Parser where
  defs : List (String × ArgDef)
  shortToLong : List (String × String)
  parsed : List (String × Value)
deriving DecidableEq

/-- `NewParser` from the source: default `NumArgs` 0 to 1, index by long
name, and by short name when non-empty. -/
def NewParser (args : List ArgDef) : Parser :=
  args.foldl
    (fun p arg =>
      let arg := if arg.NumArgs = 0 then { arg with NumArgs := 1 } else arg
      { p with
        defs := mapInsert p.defs arg.Name arg
        shortToLong :=
          if arg.Short ≠ "" then mapInsert p.shortToLong arg.Short arg.Name
          else p.shortToLong })
    ⟨[], [], []⟩

/-- `strconv.Atoi`: optional sign, then decimal digits only, with the
64-bit range check (`Atoi` fails with `ErrRange` outside `int64`). -/
def goAtoi (s : String) : Option Int :=
  if s = "" then none
  else
    let neg : Bool := goHasPrefix s "-"
    let digits : String := if goHasPrefix s "-" || goHasPrefix s "+" then s.drop 1 else s
    if digits = "" then none
    else if digits.data.all Char.isDigit then
      let n : Nat := digits.data.foldl (fun a c => a * 10 + (c.toNat - '0'.toNat)) 0
      let v : Int := if neg then -(n : Int) else (n : Int)
      if -(2 ^ 63) ≤ v ∧ v < 2 ^ 63 then some v else none
    else none

/-- Success/failure of `strconv.ParseFloat` (decimal forms: optional sign,
digits with an optional fractional part or a bare fractional part, and an
optional exponent). -/
def goParseFloatOk (s : String) : Bool :=
  let body := if goHasPrefix s "-" || goHasPrefix s "+" then s.drop 1 else s
  let mantissaOk (m : String) : Bool :=
    let parts := m.splitOn "."
    match parts with
    | [intPart] => intPart ≠ "" && intPart.data.all Char.isDigit
    | [intPart, fracPart] =>
      (intPart ≠ "" || fracPart ≠ "") &&
        intPart.data.all Char.isDigit && fracPart.data.all Char.isDigit
    | _ => false
  let expOk (e : String) : Bool :=
    let digits := if goHasPrefix e "-" || goHasPrefix e "+" then e.drop 1 else e
    digits ≠ "" && digits.data.all Char.isDigit
  match body.splitOn "e" with
  | [m] =>
    match body.splitOn "E" with
    | [m'] => mantissaOk m'
    | [m', e] => mantissaOk m' && expOk e
    | _ => mantissaOk m && false
  | [m, e] => mantissaOk m && expOk e
  | _ => false

/-- The value-collection loop of `collectArgs`: consume up to `numArgs`
following tokens, stopping at a token with a leading dash or at the end of
the stream.  Returns the collected tokens and the remaining stream. -/
def collectTokens : Nat → List String → List String × List String
  | 0, argv => ([], argv)
  | _ + 1, [] => ([], [])
  | n + 1, next :: rest =>
    if goHasPrefix next "-" then ([], next :: rest)
    else ((collectTokens n rest).1.cons next, (collectTokens n rest).2)

/-- The `case Int` loop of `collectArgs`: coerce every collected token,
stopping at the first failure (which carries the offending token). -/
def coerceInts (name : String) : List String → Except ParseError (List Int)
  | [] => .ok []
  | s :: rest =>
    match goAtoi s with
    | none => .error (.expectsInt name s)
    | some n =>
      match coerceInts name rest with
      | .error e => .error e
      | .ok ns => .ok (n :: ns)

/-- The `case Float` loop of `collectArgs`: validate every collected token,
stopping at the first failure.  On success the coerced floats are
represented by their source tokens. -/
def coerceFloats (name : String) : List String → Except ParseError (List String)
  | [] => .ok []
  | s :: rest =>
    if goParseFloatOk s then
      match coerceFloats name rest with
      | .error e => .error e
      | .ok fs => .ok (s :: fs)
    else .error (.expectsFloat name s)

/-- The tail of `collectArgs` after the collection loop: the excess-value
check (`!def.AcceptOverArgs && len(args) > def.NumArgs`) followed by the
type switch, returning a bare scalar for exactly one collected value and a
list otherwise. -/
def coerceArgs (dfn : ArgDef) (args : List String) : Except ParseError Value :=
  if !dfn.AcceptOverArgs && decide (dfn.NumArgs < args.length) then
    .error (.tooManyArguments dfn.Name)
  else
    match dfn.type' with
    | .int =>
      match coerceInts dfn.Name args with
      | .error e => .error e
      | .ok ints =>
        match ints with
        | [n] => .ok (.int n)
        | _ => .ok (.intList ints)
    | .float =>
      match coerceFloats dfn.Name args with
      | .error e => .error e
      | .ok floats =>
        match floats with
        | [f] => .ok (.float f)
        | _ => .ok (.floatList floats)
    | .string =>
      match args with
      | [s] => .ok (.str s)
      | _ => .ok (.strList args)

/-- `collectArgs` from the source (the receiver `p` is unused there):
run the collection loop, then `coerceArgs`; also returns the remaining
token stream (the source advances the caller's cursor `*i` instead). -/
def collectArgs (argv : List String) (dfn : ArgDef) : Except ParseError (Value × List String) :=
  match coerceArgs dfn (collectTokens dfn.NumArgs argv).1 with
  | .error e => .error e
  | .ok v => .ok (v, (collectTokens dfn.NumArgs argv).2)

/-- The per-call state of the scanning loop of `Parse`: the `used` set and
the instance's `parsed` map being filled in. -/
structure ScanState where
  used : List String
  parsed : List (String × Value)
deriving DecidableEq

/-- The token-scanning loop of `Parse`: classify each token (long form,
short form, or unexpected), resolve it in the registry, detect duplicates,
and collect/coerce its values.  The source delegates collection and
coercion to `collectArgs`; here the two halves of `collectArgs` appear
inline (`collectTokens` for the cursor advance, `coerceArgs` for the value)
so that the recursion is visibly on a suffix of the stream —
`scanTokens_collectArgs_ok`/`scanTokens_collectArgs_error` below restate
the two branches in terms of `collectArgs` itself. -/
def scanTokens (p : Parser) (st : ScanState) : List String → Except ParseError ScanState
  | [] => .ok st
  | arg :: rest =>
    if goHasPrefix arg "--" then
      let name := arg.drop 2
      match mapLookup p.defs name with
      | some dfn =>
        if st.used.contains name then .error (.duplicateLong name)
        else
          match coerceArgs dfn (collectTokens dfn.NumArgs rest).1 with
          | .error e => .error e
          | .ok val =>
            scanTokens p ⟨name :: st.used, mapInsert st.parsed name val⟩
              (collectTokens dfn.NumArgs rest).2
      | none => .error (.unknownLong name)
    else if goHasPrefix arg "-" then
      let short := arg.drop 1
      if short.utf8ByteSize > 1 then .error (.invalidShortForm short)
      else
        match mapLookup p.shortToLong short with
        | some name =>
          if st.used.contains name then .error (.duplicateShort short name)
          else
            let dfn := (mapLookup p.defs name).getD default
            match coerceArgs dfn (collectTokens dfn.NumArgs rest).1 with
            | .error e => .error e
            | .ok val =>
              scanTokens p ⟨name :: st.used, mapInsert st.parsed name val⟩
                (collectTokens dfn.NumArgs rest).2
        | none => .error (.unknownShort short)
    else .error (.unexpectedToken arg)
termination_by argv => argv.length
decreasing_by
  all_goals
    have hgen : ∀ (n : Nat) (l : List String), (collectTokens n l).2.length ≤ l.length := by
      intro n
      induction n with
      | zero => simp [collectTokens]
      | succ n ih =>
        intro l
        cases l with
        | nil => simp [collectTokens]
        | cons a m =>
          simp only [collectTokens]
          split
          · simp
          · exact le_trans (ih m) (Nat.le_succ _)
    exact Nat.lt_succ_of_le (hgen _ _)

/-- The required/conditional-required loop at the end of `Parse`,
parameterised by the iteration order of the `p.defs` map (Go map iteration
order is unspecified). -/
def checkRequired (entries : List (String × ArgDef)) (used : List String)
    (parsed : List (String × Value)) : Option ParseError :=
  match entries with
  | [] => none
  | (name, dfn) :: rest =>
    if dfn.Required && (mapLookup parsed name).isNone then
      if dfn.OptionalIfGiven.any (fun opt => used.contains opt) then
        checkRequired rest used parsed
      else some (.missingRequired name)
    else checkRequired rest used parsed

/-- `Parse` from the source, with the final map iteration order made
explicit: scan the injected token stream (`os.Args[1:]`), then run the
required check over `entries` (an arrangement of the `p.defs` entries).
The scan starts from the instance's current `parsed` map, which `Parse`
never resets. -/
def ParseWithOrder (p : Parser) (entries : List (String × ArgDef))
    (argv : List String) : Except ParseError (List (String × Value)) :=
  match scanTokens p ⟨[], p.parsed⟩ argv with
  | .error e => .error e
  | .ok st =>
    match checkRequired entries st.used st.parsed with
    | some e => .error e
    | none => .ok st.parsed

/-- `Parse` from the source, iterating `p.defs` in insertion order. -/
def Parser.Parse (p : Parser) (argv : List String) : Except ParseError (List (String × Value)) :=
  ParseWithOrder p p.defs argv

/-- Flag resolution as performed by the scanning loop: the long name an
input token is resolved to, when it is a recognised flag token. -/
def resolveFlag (p : Parser) (t : String) : Option String :=
  if goHasPrefix t "--" then
    match mapLookup p.defs (t.drop 2) with
    | some _ => some (t.drop 2)
    | none => none
  else if goHasPrefix t "-" then
    if (t.drop 1).utf8ByteSize > 1 then none
    else mapLookup p.shortToLong (t.drop 1)
  else none

/-- A non-empty token list whose first token carries a leading dash. -/
def headDash (zs : List String) : Prop :=
  ∃ t ys, zs = t :: ys ∧ goHasPrefix t "-" = true

/-- Scalar results: exactly the three bare (non-list) value forms. -/
def Value.isScalar : Value → Bool
  | .str _ => true
  | .int _ => true
  | .float _ => true
  | _ => false

/-- The length of a sequence result (`none` on scalars). -/
def Value.seqLength : Value → Option Nat
  | .strList l => some l.length
  | .intList l => some l.length
  | .floatList l => some l.length
  | _ => none

/-- No stored string token carries a leading dash, and hence no stored
integer is negative. -/
def Value.noDash : Value → Bool
  | .str s => !goHasPrefix s "-"
  | .strList l => l.all (fun s => !goHasPrefix s "-")
  | .int n => decide (0 ≤ n)
  | .intList l => l.all (fun n => decide (0 ≤ n))
  | .float t => !goHasPrefix t "-"
  | .floatList l => l.all (fun t => !goHasPrefix t "-")

/-- The failure condition of one entry in the final required-check loop. -/
def reqFails (used : List String) (parsed : List (String × Value))
    (ent : String × ArgDef) : Bool :=
  ent.2.Required && (mapLookup parsed ent.1).isNone &&
    !(ent.2.OptionalIfGiven.any (fun opt => used.contains opt))

/-- Key uniqueness of an association-list map. -/
def KeysNodup {α : Type} (m : List (String × α)) : Prop :=
  (m.map Prod.fst).Nodup

/-- C9: `Parse` never resets the accumulated value map of an instance:
given a successful first call returning `m1`, a second call on the same
instance (whose `parsed` field now holds `m1`) keeps every key of `m1` in
its own successful result, keeps the first call's value for every
argument the second stream does not supply again, and never reports a
required argument recorded by the first call as missing, even when it is
absent from the second token stream. -/

theorem collectTokens_rest_length (n : Nat) (argv : List String) :
    (collectTokens n argv).2.length ≤ argv.length := by
  induction n generalizing argv with
  | zero => simp [collectTokens]
  | succ n ih =>
    cases argv with
    | nil => simp [collectTokens]
    | cons a l =>
      simp only [collectTokens]
      split
      · simp
      · exact le_trans (ih l) (Nat.le_succ _)

theorem collectArgs_rest_length {argv : List String} {dfn : ArgDef} {v : Value}
    {rest : List String} (h : collectArgs argv dfn = .ok (v, rest)) :
    rest.length ≤ argv.length := by
  have hlen := collectTokens_rest_length dfn.NumArgs argv
  unfold collectArgs at h
  split at h
  · exact absurd h (by simp)
  · simp only [Except.ok.injEq, Prod.mk.injEq] at h
    rw [← h.2]
    exact hlen

theorem goHasPrefix_dash_of_dashdash {s : String} (h : goHasPrefix s "--" = true) :
    goHasPrefix s "-" = true := by
  cases s with
  | mk l =>
    cases l with
    | nil => simp [goHasPrefix, List.isPrefixOf] at h
    | cons c cs =>
      simp only [goHasPrefix, List.isPrefixOf_iff_prefix] at h ⊢
      simp_all
      exact h.1

theorem collectTokens_rest_suffix (n : Nat) (l : List String) :
    (collectTokens n l).2 <:+ l := by
  induction n generalizing l with
  | zero => simp [collectTokens]
  | succ n ih =>
    cases l with
    | nil => simp [collectTokens]
    | cons a rest =>
      simp only [collectTokens]
      split
      · simp
      · exact (ih rest).trans (List.suffix_cons a rest)

theorem mem_collectTokens_fst {n : Nat} {l : List String} {x : String}
    (h : x ∈ (collectTokens n l).1) : goHasPrefix x "-" = false := by
  induction n generalizing l with
  | zero => simp [collectTokens] at h
  | succ n ih =>
    cases l with
    | nil => simp [collectTokens] at h
    | cons a rest =>
      simp only [collectTokens] at h
      split at h
      · simp at h
      · rename_i hdash
        simp only [List.cons, List.mem_cons] at h
        rcases h with h | h
        · subst h; simpa using hdash
        · exact ih h

theorem collectTokens_append_dash {t : String} (ht : goHasPrefix t "-" = true)
    (n : Nat) (xs ys : List String) :
    collectTokens n (xs ++ t :: ys) =
      ((collectTokens n xs).1, (collectTokens n xs).2 ++ t :: ys) := by
  induction n generalizing xs with
  | zero => simp [collectTokens]
  | succ n ih =>
    cases xs with
    | nil => simp [collectTokens, ht]
    | cons a rest =>
      simp only [collectTokens, List.cons_append]
      split
      · simp
      · simp [ih rest]

theorem collectTokens_append_headDash {zs : List String} (hz : headDash zs)
    (n : Nat) (xs : List String) :
    collectTokens n (xs ++ zs) = ((collectTokens n xs).1, (collectTokens n xs).2 ++ zs) := by
  obtain ⟨t, ys, rfl, ht⟩ := hz
  induction n generalizing xs with
  | zero => simp [collectTokens]
  | succ n ih =>
    cases xs with
    | nil => simp [collectTokens, ht]
    | cons a rest =>
      simp only [collectTokens, List.cons_append]
      split
      · simp
      · simp [ih rest]

theorem scanTokens_append {zs : List String} (hz : headDash zs) (p : Parser) :
    ∀ (N : Nat) (xs : List String) (st : ScanState), xs.length ≤ N →
      scanTokens p st (xs ++ zs) =
        (match scanTokens p st xs with
         | .error e => .error e
         | .ok st' => scanTokens p st' zs) := by
  intro N
  induction N with
  | zero =>
    intro xs st hlen
    have hx : xs = [] := List.eq_nil_of_length_eq_zero (Nat.le_zero.mp hlen)
    subst hx
    simp [scanTokens]
  | succ N ih =>
    intro xs st hlen
    cases xs with
    | nil => simp [scanTokens]
    | cons a rest =>
      have hlen' : rest.length ≤ N := Nat.le_of_succ_le_succ hlen
      by_cases h1 : goHasPrefix a "--"
      · cases h2 : mapLookup p.defs (a.drop 2) with
        | none => simp [scanTokens, h1, h2]
        | some dfn =>
          by_cases h3 : a.drop 2 ∈ st.used
          · simp [scanTokens, h1, h2, h3]
          · rw [List.cons_append]
            simp only [scanTokens, h1, h2, if_true, reduceIte]
            rw [collectTokens_append_headDash hz]
            cases h4 : coerceArgs dfn (collectTokens dfn.NumArgs rest).1 with
            | error e => simp [h3, h4]
            | ok val =>
              have hc : st.used.contains (a.drop 2) = false := by simpa using h3
              simp only [h4, hc, Bool.false_eq_true, if_false]
              exact ih _ _ (le_trans ((collectTokens_rest_suffix _ _).length_le) hlen')
      · by_cases h5 : goHasPrefix a "-"
        · by_cases h6 : (a.drop 1).utf8ByteSize > 1
          · simp [scanTokens, h1, h5, h6]
          · cases h7 : mapLookup p.shortToLong (a.drop 1) with
            | none => simp [scanTokens, h1, h5, h6, h7]
            | some name =>
              by_cases h8 : name ∈ st.used
              · simp [scanTokens, h1, h5, h6, h7, h8]
              · rw [List.cons_append]
                simp only [scanTokens, h1, h5, h6, h7, if_true, if_false, reduceIte,
                  Bool.false_eq_true]
                rw [collectTokens_append_headDash hz]
                cases h4 : coerceArgs ((mapLookup p.defs name).getD default)
                    (collectTokens ((mapLookup p.defs name).getD default).NumArgs rest).1 with
                | error e => simp [h8, h4]
                | ok val =>
                  have hc : st.used.contains name = false := by simpa using h8
                  simp only [h4, hc, Bool.false_eq_true, if_false]
                  exact ih _ _ (le_trans ((collectTokens_rest_suffix _ _).length_le) hlen')
        · simp [scanTokens, h1, h5]

theorem mapLookup_insert_self {α : Type} (m : List (String × α)) (k : String) (v : α) :
    mapLookup (mapInsert m k v) k = some v := by
  induction m with
  | nil => simp [mapInsert, mapLookup]
  | cons kv rest ih =>
    obtain ⟨k', v'⟩ := kv
    by_cases h : k' = k
    · simp [mapInsert, mapLookup, h]
    · simp [mapInsert, mapLookup, h, ih]

theorem mapLookup_insert_ne {α : Type} (m : List (String × α)) (k k' : String) (v : α)
    (h : k' ≠ k) : mapLookup (mapInsert m k v) k' = mapLookup m k' := by
  induction m with
  | nil => simp [mapInsert, mapLookup, Ne.symm h]
  | cons kv rest ih =>
    obtain ⟨k0, v0⟩ := kv
    by_cases h0 : k0 = k
    · subst h0
      simp [mapInsert, mapLookup, Ne.symm h]
    · simp only [mapInsert, h0, if_false, reduceIte]
      by_cases h1 : k0 = k'
      · simp [mapLookup, h1]
      · simp [mapLookup, h1, ih]

theorem mapLookup_mem {α : Type} {m : List (String × α)} {k : String} {v : α}
    (h : mapLookup m k = some v) : (k, v) ∈ m := by
  induction m with
  | nil => simp [mapLookup] at h
  | cons kv rest ih =>
    obtain ⟨k0, v0⟩ := kv
    by_cases h0 : k0 = k
    · subst h0
      simp only [mapLookup, if_true, reduceIte, Option.some.injEq] at h
      simp [h]
    · simp only [mapLookup, h0, if_false, reduceIte] at h
      exact List.mem_cons_of_mem _ (ih h)

/-- The facts a successful scan guarantees between its initial and final
state: the used set only grows, entries of `parsed` outside the final used
set are untouched, every new `parsed` key was marked used, existing keys
survive, and every new value was produced by `coerceArgs` on some
collected token list. -/
theorem scanTokens_ok_facts (p : Parser) :
    ∀ (N : Nat) (ts : List String) (st st' : ScanState), ts.length ≤ N →
      scanTokens p st ts = .ok st' →
      (∀ x, x ∈ st.used → x ∈ st'.used) ∧
      (∀ k, k ∉ st'.used → mapLookup st'.parsed k = mapLookup st.parsed k) ∧
      (∀ k, (mapLookup st'.parsed k).isSome →
        (mapLookup st.parsed k).isSome ∨ k ∈ st'.used) ∧
      (∀ k, (mapLookup st.parsed k).isSome → (mapLookup st'.parsed k).isSome) ∧
      (∀ k v, mapLookup st'.parsed k = some v → mapLookup st.parsed k = some v ∨
        ∃ dfn args, coerceArgs dfn ((collectTokens dfn.NumArgs args).1) = .ok v) := by
  intro N
  induction N with
  | zero =>
    intro ts st st' hlen hok
    have hx : ts = [] := List.eq_nil_of_length_eq_zero (Nat.le_zero.mp hlen)
    subst hx
    simp only [scanTokens, Except.ok.injEq] at hok
    subst hok
    exact ⟨fun x h => h, fun k _ => rfl, fun k h => .inl h, fun k h => h,
      fun k v h => .inl h⟩
  | succ N ih =>
    intro ts st st' hlen hok
    cases ts with
    | nil =>
      simp only [scanTokens, Except.ok.injEq] at hok
      subst hok
      exact ⟨fun x h => h, fun k _ => rfl, fun k h => .inl h, fun k h => h,
        fun k v h => .inl h⟩
    | cons a rest =>
      have hlen' : rest.length ≤ N := Nat.le_of_succ_le_succ hlen
      -- reduce the head step to: state update then recursive scan
      have hstep : ∃ (name : String) (dfn : ArgDef) (val : Value),
          coerceArgs dfn (collectTokens dfn.NumArgs rest).1 = .ok val ∧
          scanTokens p ⟨name :: st.used, mapInsert st.parsed name val⟩
            (collectTokens dfn.NumArgs rest).2 = .ok st' := by
        by_cases h1 : goHasPrefix a "--"
        · cases h2 : mapLookup p.defs (a.drop 2) with
          | none => simp [scanTokens, h1, h2] at hok
          | some dfn =>
            by_cases h3 : a.drop 2 ∈ st.used
            · simp [scanTokens, h1, h2, h3] at hok
            · have hc : st.used.contains (a.drop 2) = false := by simpa using h3
              simp only [scanTokens, h1, h2, if_true, reduceIte, hc,
                Bool.false_eq_true, if_false] at hok
              cases h4 : coerceArgs dfn (collectTokens dfn.NumArgs rest).1 with
              | error e => simp [h4] at hok
              | ok val =>
                simp only [h4] at hok
                exact ⟨a.drop 2, dfn, val, h4, hok⟩
        · by_cases h5 : goHasPrefix a "-"
          · by_cases h6 : (a.drop 1).utf8ByteSize > 1
            · simp [scanTokens, h1, h5, h6] at hok
            · cases h7 : mapLookup p.shortToLong (a.drop 1) with
              | none => simp [scanTokens, h1, h5, h6, h7] at hok
              | some name =>
                by_cases h8 : name ∈ st.used
                · simp [scanTokens, h1, h5, h6, h7, h8] at hok
                · have hc : st.used.contains name = false := by simpa using h8
                  simp only [scanTokens, h1, h5, h6, h7, if_true, if_false, reduceIte,
                    Bool.false_eq_true, hc] at hok
                  cases h4 : coerceArgs ((mapLookup p.defs name).getD default)
                      (collectTokens ((mapLookup p.defs name).getD default).NumArgs rest).1 with
                  | error e => simp [h4] at hok
                  | ok val =>
                    simp only [h4] at hok
                    exact ⟨name, _, val, h4, hok⟩
          · simp [scanTokens, h1, h5] at hok
      obtain ⟨name, dfn, val, h4, hrec⟩ := hstep
      have hsuf := (collectTokens_rest_suffix dfn.NumArgs rest).length_le
      obtain ⟨iu, istable, inew, imono, iprov⟩ := ih _ _ _ (le_trans hsuf hlen') hrec
      refine ⟨?_, ?_, ?_, ?_, ?_⟩
      · intro x hx
        exact iu x (List.mem_cons_of_mem _ hx)
      · intro k hk
        have hkname : k ≠ name := by
          intro hkn
          exact hk (iu k (by simp [hkn]))
        rw [istable k hk, mapLookup_insert_ne _ _ _ _ hkname]
      · intro k hks
        rcases inew k hks with hsome | hused
        · by_cases hkname : k = name
          · subst hkname
            exact .inr (iu k (by simp))
          · rw [mapLookup_insert_ne _ _ _ _ hkname] at hsome
            exact .inl hsome
        · exact .inr hused
      · intro k hks
        apply imono
        by_cases hkname : k = name
        · subst hkname
          simp [mapLookup_insert_self]
        · rw [mapLookup_insert_ne _ _ _ _ hkname]
          exact hks
      · intro k v hkv
        rcases iprov k v hkv with hsome | hprov
        · by_cases hkname : k = name
          · subst hkname
            rw [mapLookup_insert_self] at hsome
            obtain rfl : val = v := by injection hsome
            exact .inr ⟨dfn, rest, h4⟩
          · rw [mapLookup_insert_ne _ _ _ _ hkname] at hsome
            exact .inl hsome
        · exact .inr hprov

theorem checkRequired_cons (name : String) (dfn : ArgDef) (rest : List (String × ArgDef))
    (used : List String) (parsed : List (String × Value)) :
    checkRequired ((name, dfn) :: rest) used parsed =
      if reqFails used parsed (name, dfn) then some (.missingRequired name)
      else checkRequired rest used parsed := by
  by_cases h1 : (dfn.Required && (mapLookup parsed name).isNone) = true
  · by_cases h2 : (dfn.OptionalIfGiven.any fun opt => used.contains opt) = true
    · have hf : reqFails used parsed (name, dfn) = false := by
        simp only [reqFails, h2, Bool.not_true, Bool.and_false]
      rw [hf]
      simp only [checkRequired, h1, h2, if_true, reduceIte, Bool.false_eq_true, if_false]
    · have h2' : (dfn.OptionalIfGiven.any fun opt => used.contains opt) = false :=
        Bool.eq_false_iff.mpr h2
      have hf : reqFails used parsed (name, dfn) = true := by
        simp only [reqFails, h1, h2', Bool.not_false, Bool.true_and, Bool.and_true]
      rw [hf]
      simp only [checkRequired, h1, h2', if_true, reduceIte, Bool.false_eq_true, if_false]
  · have hf : reqFails used parsed (name, dfn) = false := by
      simp only [reqFails]
      rw [Bool.and_eq_false_iff]
      exact .inl (Bool.eq_false_iff.mpr h1)
    rw [hf]
    have h1' := Bool.eq_false_iff.mpr h1
    simp only [checkRequired, h1', Bool.false_eq_true, if_false, reduceIte]

theorem checkRequired_none_iff (entries : List (String × ArgDef)) (used : List String)
    (parsed : List (String × Value)) :
    checkRequired entries used parsed = none ↔
      ∀ ent ∈ entries, reqFails used parsed ent = false := by
  induction entries with
  | nil => simp [checkRequired]
  | cons ent rest ih =>
    obtain ⟨name, dfn⟩ := ent
    rw [checkRequired_cons]
    by_cases hf : reqFails used parsed (name, dfn) = true
    · rw [if_pos hf]
      constructor
      · intro h
        exact absurd h (by simp)
      · intro h
        exact absurd (h _ (List.mem_cons_self _ _)) (by simp [hf])
    · have hf' := Bool.eq_false_iff.mpr hf
      rw [if_neg (by simp [hf'])]
      rw [ih]
      constructor
      · intro h ent hent
        rcases List.mem_cons.mp hent with rfl | hmem
        · exact hf'
        · exact h ent hmem
      · intro h ent hent
        exact h ent (List.mem_cons_of_mem _ hent)

theorem checkRequired_some_shape {entries : List (String × ArgDef)} {used : List String}
    {parsed : List (String × Value)} {e : ParseError}
    (h : checkRequired entries used parsed = some e) :
    ∃ n d, e = .missingRequired n ∧ (n, d) ∈ entries ∧
      reqFails used parsed (n, d) = true := by
  induction entries with
  | nil => simp [checkRequired] at h
  | cons ent rest ih =>
    obtain ⟨name, dfn⟩ := ent
    rw [checkRequired_cons] at h
    by_cases hf : reqFails used parsed (name, dfn) = true
    · rw [if_pos hf] at h
      exact ⟨name, dfn, (Option.some.injEq _ _ ▸ h).symm, List.mem_cons_self _ _, hf⟩
    · rw [if_neg (by simp [Bool.eq_false_iff.mpr hf])] at h
      obtain ⟨n, d, he, hmem, hfl⟩ := ih h
      exact ⟨n, d, he, List.mem_cons_of_mem _ hmem, hfl⟩

theorem checkRequired_missing {entries : List (String × ArgDef)} {used : List String}
    {parsed : List (String × Value)} {n : String} {d : ArgDef}
    (hmem : (n, d) ∈ entries)
    (hfail : reqFails used parsed (n, d) = true)
    (hothers : ∀ ent ∈ entries, ent.1 ≠ n → reqFails used parsed ent = false)
    (huniq : ∀ ent ∈ entries, ent.1 = n → ent.2 = d) :
    checkRequired entries used parsed = some (.missingRequired n) := by
  induction entries with
  | nil => simp at hmem
  | cons ent rest ih =>
    obtain ⟨name, dfn⟩ := ent
    rw [checkRequired_cons]
    by_cases hname : name = n
    · subst hname
      have hd : dfn = d := huniq (name, dfn) (List.mem_cons_self _ _) rfl
      subst hd
      rw [if_pos hfail]
    · have h0 : reqFails used parsed (name, dfn) = false :=
        hothers (name, dfn) (List.mem_cons_self _ _) hname
      rw [if_neg (by simp [h0])]
      have hmem' : (n, d) ∈ rest := by
        rcases List.mem_cons.mp hmem with heq | hm
        · exact absurd (congrArg Prod.fst heq).symm hname
        · exact hm
      exact ih hmem' (fun ent hent hne => hothers ent (List.mem_cons_of_mem _ hent) hne)
        (fun ent hent he => huniq ent (List.mem_cons_of_mem _ hent) he)

theorem mapInsert_keys_sub {α : Type} (m : List (String × α)) (k : String) (v : α) :
    ∀ k', k' ∈ (mapInsert m k v).map Prod.fst → k' = k ∨ k' ∈ m.map Prod.fst := by
  induction m with
  | nil => simp [mapInsert]
  | cons kv rest ih =>
    obtain ⟨k0, v0⟩ := kv
    intro k' hk'
    by_cases h0 : k0 = k
    · simp only [mapInsert, h0, if_true, reduceIte, List.map_cons, List.mem_cons] at hk'
      rcases hk' with rfl | h
      · exact .inl rfl
      · exact .inr (by simp [h])
    · simp only [mapInsert, h0, if_false, reduceIte, List.map_cons, List.mem_cons] at hk'
      rcases hk' with rfl | h
      · exact .inr (by simp)
      · rcases ih k' h with h | h
        · exact .inl h
        · exact .inr (by simp [h])

theorem mapInsert_keysNodup {α : Type} {m : List (String × α)} (h : KeysNodup m)
    (k : String) (v : α) : KeysNodup (mapInsert m k v) := by
  induction m with
  | nil => simp [KeysNodup, mapInsert]
  | cons kv rest ih =>
    obtain ⟨k0, v0⟩ := kv
    simp only [KeysNodup, List.map_cons, List.nodup_cons] at h
    by_cases h0 : k0 = k
    · subst h0
      simp only [mapInsert, if_true, reduceIte]
      simp only [KeysNodup, List.map_cons, List.nodup_cons]
      exact h
    · simp only [mapInsert, h0, if_false, reduceIte]
      simp only [KeysNodup, List.map_cons, List.nodup_cons]
      refine ⟨?_, ih h.2⟩
      intro hmem
      rcases mapInsert_keys_sub rest k v k0 hmem with rfl | hin
      · exact h0 rfl
      · exact h.1 hin

theorem NewParser_parsed (args : List ArgDef) : (NewParser args).parsed = [] := by
  suffices hgen : ∀ (p : Parser),
      (args.foldl
        (fun p arg =>
          let arg := if arg.NumArgs = 0 then { arg with NumArgs := 1 } else arg
          { p with
            defs := mapInsert p.defs arg.Name arg
            shortToLong :=
              if arg.Short ≠ "" then mapInsert p.shortToLong arg.Short arg.Name
              else p.shortToLong })
        p).parsed = p.parsed by
    exact hgen ⟨[], [], []⟩
  induction args with
  | nil => intro p; rfl
  | cons a rest ih => intro p; exact ih _

theorem NewParser_defs_nodup (args : List ArgDef) : KeysNodup (NewParser args).defs := by
  suffices hgen : ∀ (p : Parser), KeysNodup p.defs →
      KeysNodup ((args.foldl
        (fun p arg =>
          let arg := if arg.NumArgs = 0 then { arg with NumArgs := 1 } else arg
          { p with
            defs := mapInsert p.defs arg.Name arg
            shortToLong :=
              if arg.Short ≠ "" then mapInsert p.shortToLong arg.Short arg.Name
              else p.shortToLong })
        p).defs) by
    exact hgen ⟨[], [], []⟩ (by simp [KeysNodup])
  induction args with
  | nil => intro p hp; exact hp
  | cons a rest ih =>
    intro p hp
    exact ih _ (mapInsert_keysNodup hp _ _)

theorem mapLookup_unique {α : Type} {m : List (String × α)} (hnd : KeysNodup m)
    {k : String} {v : α} (hmem : (k, v) ∈ m) : mapLookup m k = some v := by
  induction m with
  | nil => simp at hmem
  | cons kv rest ih =>
    obtain ⟨k0, v0⟩ := kv
    simp only [KeysNodup, List.map_cons, List.nodup_cons] at hnd
    rcases List.mem_cons.mp hmem with heq | hm
    · cases heq
      simp [mapLookup]
    · by_cases h0 : k0 = k
      · subst h0
        exact absurd (List.mem_map.mpr ⟨(k0, v), hm, rfl⟩) hnd.1
      · simp only [mapLookup, h0, if_false, reduceIte]
        exact ih hnd.2 hm

theorem coerceInts_forall2 {name : String} {vs : List String} {ns : List Int}
    (h : coerceInts name vs = .ok ns) :
    List.Forall₂ (fun s m => goAtoi s = some m) vs ns := by
  induction vs generalizing ns with
  | nil =>
    simp only [coerceInts, Except.ok.injEq] at h
    subst h
    exact List.Forall₂.nil
  | cons s rest ih =>
    simp only [coerceInts] at h
    cases ha : goAtoi s with
    | none => rw [ha] at h; exact absurd h (by simp)
    | some n =>
      rw [ha] at h
      cases hr : coerceInts name rest with
      | error e => rw [hr] at h; exact absurd h (by simp)
      | ok ms =>
        rw [hr] at h
        simp only [Except.ok.injEq] at h
        subst h
        exact List.Forall₂.cons ha (ih hr)

theorem coerceInts_error_first {name : String} {vs : List String} {w : String}
    (hw : w ∈ vs) (hbad : goAtoi w = none) :
    ∃ u ∈ vs, goAtoi u = none ∧ coerceInts name vs = .error (.expectsInt name u) := by
  induction vs with
  | nil => simp at hw
  | cons s rest ih =>
    cases ha : goAtoi s with
    | none =>
      exact ⟨s, List.mem_cons_self _ _, ha, by simp only [coerceInts, ha]⟩
    | some n =>
      have hw' : w ∈ rest := by
        rcases List.mem_cons.mp hw with rfl | hm
        · exact absurd ha (by simp [hbad])
        · exact hm
      obtain ⟨u, hu, hbu, herr⟩ := ih hw'
      refine ⟨u, List.mem_cons_of_mem _ hu, hbu, ?_⟩
      simp only [coerceInts, ha, herr]

theorem coerceFloats_ok_eq {name : String} {vs fs : List String}
    (h : coerceFloats name vs = .ok fs) : fs = vs := by
  induction vs generalizing fs with
  | nil =>
    simp only [coerceFloats, Except.ok.injEq] at h
    exact h.symm
  | cons s rest ih =>
    simp only [coerceFloats] at h
    split at h
    · cases hr : coerceFloats name rest with
      | error e => rw [hr] at h; exact absurd h (by simp)
      | ok gs =>
        rw [hr] at h
        simp only [Except.ok.injEq] at h
        subst h
        rw [ih hr]
    · exact absurd h (by simp)

theorem coerceFloats_error_first {name : String} {vs : List String} {w : String}
    (hw : w ∈ vs) (hbad : goParseFloatOk w = false) :
    ∃ u ∈ vs, goParseFloatOk u = false ∧
      coerceFloats name vs = .error (.expectsFloat name u) := by
  induction vs with
  | nil => simp at hw
  | cons s rest ih =>
    cases ha : goParseFloatOk s with
    | false =>
      exact ⟨s, List.mem_cons_self _ _, ha, by simp only [coerceFloats, ha,
        Bool.false_eq_true, if_false, reduceIte]⟩
    | true =>
      have hw' : w ∈ rest := by
        rcases List.mem_cons.mp hw with rfl | hm
        · exact absurd ha (by simp [hbad])
        · exact hm
      obtain ⟨u, hu, hbu, herr⟩ := ih hw'
      refine ⟨u, List.mem_cons_of_mem _ hu, hbu, ?_⟩
      simp only [coerceFloats, ha, if_true, reduceIte, herr]

theorem goAtoi_nonneg {s : String} {m : Int} (h : goHasPrefix s "-" = false)
    (hok : goAtoi s = some m) : 0 ≤ m := by
  unfold goAtoi at hok
  rw [h] at hok
  simp only [Bool.false_or, Bool.false_eq_true, if_false, reduceIte] at hok
  repeat' split at hok
  all_goals
    first
    | exact Option.noConfusion hok
    | (simp only [Option.some.injEq] at hok
       subst hok
       exact Int.natCast_nonneg _)

theorem coerceInts_nonneg {name : String} {vs : List String} {ns : List Int}
    (hnd : ∀ s ∈ vs, goHasPrefix s "-" = false)
    (hok : coerceInts name vs = .ok ns) : ∀ m ∈ ns, 0 ≤ m := by
  induction vs generalizing ns with
  | nil =>
    simp only [coerceInts, Except.ok.injEq] at hok
    subst hok
    simp
  | cons s rest ih =>
    simp only [coerceInts] at hok
    cases ha : goAtoi s with
    | none => rw [ha] at hok; exact Except.noConfusion hok
    | some n =>
      rw [ha] at hok
      cases hr : coerceInts name rest with
      | error e => rw [hr] at hok; exact Except.noConfusion hok
      | ok ms =>
        rw [hr] at hok
        simp only [Except.ok.injEq] at hok
        subst hok
        intro m hm
        rcases List.mem_cons.mp hm with rfl | hm'
        · exact goAtoi_nonneg (hnd s (List.mem_cons_self _ _)) ha
        · exact ih (fun x hx => hnd x (List.mem_cons_of_mem _ hx)) hr m hm'

theorem coerceArgs_noDash {dfn : ArgDef} {vs : List String} {v : Value}
    (hnd : ∀ s ∈ vs, goHasPrefix s "-" = false)
    (hok : coerceArgs dfn vs = .ok v) : v.noDash = true := by
  unfold coerceArgs at hok
  split at hok
  · exact Except.noConfusion hok
  · split at hok
    · -- Int
      cases hi : coerceInts dfn.Name vs with
      | error e => rw [hi] at hok; exact Except.noConfusion hok
      | ok ns =>
        rw [hi] at hok
        have hnn := coerceInts_nonneg hnd hi
        match ns, hok with
        | [n], hok =>
          simp only [Except.ok.injEq] at hok
          subst hok
          simpa [Value.noDash] using hnn n (by simp)
        | [], hok =>
          simp only [Except.ok.injEq] at hok
          subst hok
          simp [Value.noDash]
        | n1 :: n2 :: more, hok =>
          simp only [Except.ok.injEq] at hok
          subst hok
          simp only [Value.noDash, List.all_eq_true]
          intro m hm
          simpa using hnn m hm
    · -- Float
      cases hf : coerceFloats dfn.Name vs with
      | error e => rw [hf] at hok; exact Except.noConfusion hok
      | ok fs =>
        rw [hf] at hok
        have hfs : fs = vs := coerceFloats_ok_eq hf
        subst hfs
        match fs, hok, hnd with
        | [f], hok, hnd =>
          simp only [Except.ok.injEq] at hok
          subst hok
          simp [Value.noDash, hnd f (by simp)]
        | [], hok, _ =>
          simp only [Except.ok.injEq] at hok
          subst hok
          simp [Value.noDash]
        | f1 :: f2 :: more, hok, hnd =>
          simp only [Except.ok.injEq] at hok
          subst hok
          simp only [Value.noDash, List.all_eq_true]
          intro t ht
          simp [hnd t ht]
    · -- String
      match vs, hok, hnd with
      | [s], hok, hnd =>
        simp only [Except.ok.injEq] at hok
        subst hok
        simp [Value.noDash, hnd s (by simp)]
      | [], hok, _ =>
        simp only [Except.ok.injEq] at hok
        subst hok
        simp [Value.noDash]
      | s1 :: s2 :: more, hok, hnd =>
        simp only [Except.ok.injEq] at hok
        subst hok
        simp only [Value.noDash, List.all_eq_true]
        intro t ht
        simp [hnd t ht]

theorem reqFails_nil_nil (ent : String × ArgDef) :
    reqFails [] [] ent = ent.2.Required := by
  simp [reqFails, mapLookup]

/-- C1: with `{arity 3, acceptExcessValues false}` and four trailing
non-dash value tokens, the code does not report `tooManyArguments`: the
collection loop never takes more than `NumArgs` tokens, so the fourth
token is left in the stream and reported as `unexpectedToken`; with
`acceptExcessValues true` the outcome is identical (the flag has no
effect), not a success storing all four values. -/
theorem C1_code_behavior :
    Parser.Parse (NewParser [{ Name := "tags", NumArgs := 3, type' := .string }])
        ["--tags", "a", "b", "c", "d"] = .error (.unexpectedToken "d") ∧
    Parser.Parse
        (NewParser [{ Name := "tags", NumArgs := 3, AcceptOverArgs := true, type' := .string }])
        ["--tags", "a", "b", "c", "d"] = .error (.unexpectedToken "d") := by
  constructor <;>
    simp +decide [Parser.Parse, ParseWithOrder, NewParser, scanTokens, collectArgs,
      coerceArgs, collectTokens, mapLookup, mapInsert, checkRequired, goHasPrefix]

/-- C2, counterexample: a registry whose only required definition has a
(non-empty) waiver set still fails on the empty token stream, because no
waiving argument was supplied; so "succeeds when every required definition
has a waiver set" is false. -/
theorem C2_counterexample :
    Parser.Parse (NewParser
      [{ Name := "template", Required := true, OptionalIfGiven := ["file"] },
       { Name := "file" }]) [] = .error (.missingRequired "template") := by
  simp +decide [Parser.Parse, ParseWithOrder, NewParser, scanTokens, collectArgs,
    coerceArgs, collectTokens, mapLookup, mapInsert, checkRequired, goHasPrefix]

/-- C2, amended: for every registry, parsing the empty token stream
succeeds if and only if no definition in the registry has `required =
true` at all — on an empty stream a waiver set never helps, because no
waiving argument was supplied. -/
theorem C2_amended (args : List ArgDef) :
    (∃ m, Parser.Parse (NewParser args) [] = .ok m) ↔
      ∀ ent ∈ (NewParser args).defs, ent.2.Required = false := by
  have hp := NewParser_parsed args
  unfold Parser.Parse ParseWithOrder
  rw [hp]
  simp only [scanTokens]
  cases hc : checkRequired (NewParser args).defs [] [] with
  | some e =>
    simp only []
    constructor
    · rintro ⟨m, hm⟩
      exact Except.noConfusion hm
    · intro hall
      have hnone : checkRequired (NewParser args).defs [] [] = none :=
        (checkRequired_none_iff _ _ _).mpr (fun ent hent => by
          rw [reqFails_nil_nil]
          exact hall ent hent)
      rw [hnone] at hc
      exact Option.noConfusion hc
  | none =>
    simp only []
    constructor
    · intro _
      intro ent hent
      have hf := (checkRequired_none_iff _ _ _).mp hc ent hent
      rw [reqFails_nil_nil] at hf
      exact hf
    · intro _
      exact ⟨_, rfl⟩

theorem length_le_utf8ByteSize (s : String) : s.length ≤ s.utf8ByteSize := by
  cases s with
  | mk cs =>
    simp only [String.utf8ByteSize_mk, String.length]
    induction cs with
    | nil => simp
    | cons c cs ih =>
      rw [String.utf8Len_cons]
      have hpos := Char.utf8Size_pos c
      simp only [List.length_cons]
      omega

/-- C8: a token with exactly one leading dash followed by more than one
character, encountered at a position where the scanner expects a flag,
always produces the invalid-short-argument-form error, whatever the
registry holds — both for the scanning loop at any state and for a whole
parse starting at that token. -/
theorem C8_invalid_short_form (p : Parser) (st : ScanState) (t : String)
    (rest : List String) (h1 : goHasPrefix t "-" = true)
    (h2 : goHasPrefix t "--" = false) (h3 : 1 < (t.drop 1).length) :
    scanTokens p st (t :: rest) = .error (.invalidShortForm (t.drop 1)) ∧
    Parser.Parse p (t :: rest) = .error (.invalidShortForm (t.drop 1)) := by
  have hbyte : 1 < (t.drop 1).utf8ByteSize :=
    lt_of_lt_of_le h3 (length_le_utf8ByteSize _)
  have hscan : ∀ st' : ScanState,
      scanTokens p st' (t :: rest) = .error (.invalidShortForm (t.drop 1)) := by
    intro st'
    simp only [scanTokens, h1, h2, Bool.false_eq_true, if_false, if_true, reduceIte, hbyte,
      gt_iff_lt]
  refine ⟨hscan st, ?_⟩
  unfold Parser.Parse ParseWithOrder
  rw [hscan ⟨[], p.parsed⟩]

/-- C8 witness: the spec's own example token `-ab` against an empty
registry. -/
theorem C8_witness :
    scanTokens (NewParser []) ⟨[], []⟩ ["-ab"] = .error (.invalidShortForm "ab") ∧
    Parser.Parse (NewParser []) ["-ab"] = .error (.invalidShortForm "ab") := by
  have h := C8_invalid_short_form (NewParser []) ⟨[], []⟩ "-ab" [] (by decide)
    (by decide) (by decide)
  simpa [NewParser] using h

theorem ParseWithOrder_ok_inv {p : Parser} {entries : List (String × ArgDef)}
    {argv : List String} {m : List (String × Value)}
    (h : ParseWithOrder p entries argv = .ok m) :
    ∃ st', scanTokens p ⟨[], p.parsed⟩ argv = .ok st' ∧
      checkRequired entries st'.used st'.parsed = none ∧ m = st'.parsed := by
  unfold ParseWithOrder at h
  split at h
  · exact Except.noConfusion h
  · rename_i st' hs
    split at h
    · exact Except.noConfusion h
    · rename_i hc
      simp only [Except.ok.injEq] at h
      exact ⟨st', hs, hc, h.symm⟩

theorem ParseWithOrder_scan_error {p : Parser} {entries : List (String × ArgDef)}
    {argv : List String} {e : ParseError}
    (h : scanTokens p ⟨[], p.parsed⟩ argv = .error e) :
    ParseWithOrder p entries argv = .error e := by
  unfold ParseWithOrder
  rw [h]

theorem ParseWithOrder_error_inv {p : Parser} {entries : List (String × ArgDef)}
    {argv : List String} {e : ParseError}
    (h : ParseWithOrder p entries argv = .error e) :
    scanTokens p ⟨[], p.parsed⟩ argv = .error e ∨
      ∃ st', scanTokens p ⟨[], p.parsed⟩ argv = .ok st' ∧
        checkRequired entries st'.used st'.parsed = some e := by
  unfold ParseWithOrder at h
  split at h
  · rename_i e' hs
    simp only [Except.error.injEq] at h
    exact .inl (h ▸ hs)
  · rename_i st' hs
    split at h
    · rename_i e' hc
      simp only [Except.error.injEq] at h
      exact .inr ⟨st', hs, h ▸ hc⟩
    · exact Except.noConfusion h

theorem coerceInts_error_shape {name : String} {vs : List String} {e : ParseError}
    (h : coerceInts name vs = .error e) : ∃ s, e = .expectsInt name s := by
  induction vs with
  | nil => simp [coerceInts] at h
  | cons s rest ih =>
    simp only [coerceInts] at h
    cases ha : goAtoi s with
    | none =>
      rw [ha] at h
      simp only [Except.error.injEq] at h
      exact ⟨s, h.symm⟩
    | some n =>
      rw [ha] at h
      cases hr : coerceInts name rest with
      | error e' =>
        rw [hr] at h
        simp only [Except.error.injEq] at h
        subst h
        exact ih hr
      | ok ms => rw [hr] at h; exact Except.noConfusion h

theorem coerceFloats_error_shape {name : String} {vs : List String} {e : ParseError}
    (h : coerceFloats name vs = .error e) : ∃ s, e = .expectsFloat name s := by
  induction vs with
  | nil => simp [coerceFloats] at h
  | cons s rest ih =>
    simp only [coerceFloats] at h
    split at h
    · cases hr : coerceFloats name rest with
      | error e' =>
        rw [hr] at h
        simp only [Except.error.injEq] at h
        subst h
        exact ih hr
      | ok gs => rw [hr] at h; exact Except.noConfusion h
    · simp only [Except.error.injEq] at h
      exact ⟨s, h.symm⟩

theorem coerceArgs_error_not_unexpected {dfn : ArgDef} {vs : List String} {e : ParseError}
    (h : coerceArgs dfn vs = .error e) : ∀ u, e ≠ .unexpectedToken u := by
  intro u
  unfold coerceArgs at h
  split at h
  · simp only [Except.error.injEq] at h
    rw [← h]
    simp
  · split at h
    · cases hi : coerceInts dfn.Name vs with
      | error e' =>
        simp only [hi, Except.error.injEq] at h
        subst h
        obtain ⟨s, hs⟩ := coerceInts_error_shape hi
        simp [hs]
      | ok ns =>
        simp only [hi] at h
        split at h <;> exact Except.noConfusion h
    · cases hf : coerceFloats dfn.Name vs with
      | error e' =>
        simp only [hf, Except.error.injEq] at h
        subst h
        obtain ⟨s, hs⟩ := coerceFloats_error_shape hf
        simp [hs]
      | ok fs =>
        simp only [hf] at h
        split at h <;> exact Except.noConfusion h
    · split at h <;> exact Except.noConfusion h

theorem scanTokens_no_dash_unexpected (p : Parser) :
    ∀ (N : Nat) (ts : List String) (st : ScanState) (u : String), ts.length ≤ N →
      goHasPrefix u "-" = true →
      scanTokens p st ts ≠ .error (.unexpectedToken u) := by
  intro N
  induction N with
  | zero =>
    intro ts st u hlen hu
    have hx : ts = [] := List.eq_nil_of_length_eq_zero (Nat.le_zero.mp hlen)
    subst hx
    simp [scanTokens]
  | succ N ih =>
    intro ts st u hlen hu
    cases ts with
    | nil => simp [scanTokens]
    | cons a rest =>
      have hlen' : rest.length ≤ N := Nat.le_of_succ_le_succ hlen
      by_cases h1 : goHasPrefix a "--"
      · cases h2 : mapLookup p.defs (a.drop 2) with
        | none => simp [scanTokens, h1, h2]
        | some dfn =>
          by_cases h3 : a.drop 2 ∈ st.used
          · simp [scanTokens, h1, h2, h3]
          · have hc : st.used.contains (a.drop 2) = false := by simpa using h3
            simp only [scanTokens, h1, h2, if_true, reduceIte, hc, Bool.false_eq_true,
              if_false]
            cases h4 : coerceArgs dfn (collectTokens dfn.NumArgs rest).1 with
            | error e =>
              simp only [ne_eq, Except.error.injEq]
              exact fun hh => coerceArgs_error_not_unexpected h4 u hh
            | ok val =>
              exact ih _ _ u
                (le_trans ((collectTokens_rest_suffix _ _).length_le) hlen') hu
      · by_cases h5 : goHasPrefix a "-"
        · by_cases h6 : (a.drop 1).utf8ByteSize > 1
          · simp [scanTokens, h1, h5, h6]
          · cases h7 : mapLookup p.shortToLong (a.drop 1) with
            | none => simp [scanTokens, h1, h5, h6, h7]
            | some name =>
              by_cases h8 : name ∈ st.used
              · simp [scanTokens, h1, h5, h6, h7, h8]
              · have hc : st.used.contains name = false := by simpa using h8
                simp only [scanTokens, h1, h5, h6, h7, if_true, if_false, reduceIte,
                  Bool.false_eq_true, hc]
                cases h4 : coerceArgs ((mapLookup p.defs name).getD default)
                    (collectTokens ((mapLookup p.defs name).getD default).NumArgs rest).1 with
                | error e =>
                  simp only [ne_eq, Except.error.injEq]
                  exact fun hh => coerceArgs_error_not_unexpected h4 u hh
                | ok val =>
                  exact ih _ _ u
                    (le_trans ((collectTokens_rest_suffix _ _).length_le) hlen') hu
        · intro hcontra
          simp only [scanTokens, h1, h5, Bool.false_eq_true, if_false, reduceIte,
            Except.error.injEq, ParseError.unexpectedToken.injEq] at hcontra
          rw [← hcontra] at hu
          rw [hu] at h5
          exact h5 rfl

/-- C10: value collection never consumes a dash-prefixed token (every
collected value token lacks the dash prefix); every value stored by a
successful parse on a fresh parser therefore contains no dash-prefixed
token — in particular every stored Integer value is non-negative, so a
negative numeral such as `-5` can never be stored for an Integer- or
Float-typed argument — and a dash-prefixed token reached by the scanner
is classified as a flag token, never reported as an unexpected token. -/
theorem C10_no_dash_values :
    (∀ (n : Nat) (l : List String) (x : String), x ∈ (collectTokens n l).1 →
      goHasPrefix x "-" = false) ∧
    (∀ (dfn : ArgDef) (argv : List String) (v : Value) (rest : List String),
      collectArgs argv dfn = .ok (v, rest) → v.noDash = true) ∧
    (∀ (args : List ArgDef) (ts : List String) (m : List (String × Value))
      (k : String) (v : Value),
      Parser.Parse (NewParser args) ts = .ok m → mapLookup m k = some v →
      v.noDash = true) ∧
    (∀ (p : Parser) (st : ScanState) (ts : List String) (u : String),
      goHasPrefix u "-" = true →
      scanTokens p st ts ≠ .error (.unexpectedToken u)) := by
  have hcoll : ∀ (dfn : ArgDef) (argv : List String) (v : Value) (rest : List String),
      collectArgs argv dfn = .ok (v, rest) → v.noDash = true := by
    intro dfn argv v rest h
    unfold collectArgs at h
    split at h
    · exact Except.noConfusion h
    · rename_i val hval
      simp only [Except.ok.injEq, Prod.mk.injEq] at h
      rw [← h.1]
      exact coerceArgs_noDash (fun s hs => mem_collectTokens_fst hs) hval
  refine ⟨fun n l x h => mem_collectTokens_fst h, hcoll, ?_, ?_⟩
  · intro args ts m k v hok hkv
    obtain ⟨st', hs, hc, rfl⟩ := ParseWithOrder_ok_inv hok
    rw [NewParser_parsed] at hs
    obtain ⟨-, -, -, -, iprov⟩ :=
      scanTokens_ok_facts (NewParser args) ts.length ts _ _ (le_refl _) hs
    rcases iprov k v hkv with hinit | ⟨dfn, argvp, hco⟩
    · simp [mapLookup] at hinit
    · exact coerceArgs_noDash (fun s hs => mem_collectTokens_fst hs) hco
  · intro p st ts u hu
    exact scanTokens_no_dash_unexpected p ts.length ts st u (le_refl _) hu

/-- C10 witness: a parse storing the collected value `x` for `--file`,
with all parts of the statement instantiated at concrete inputs. -/
theorem C10_witness :
    goHasPrefix "x" "-" = false ∧
    Value.noDash (.str "x") = true ∧
    scanTokens (NewParser [{ Name := "file" }]) ⟨[], []⟩ ["-5"] ≠
      .error (.unexpectedToken "-5") := by
  have h := C10_no_dash_values
  refine ⟨?_, ?_, ?_⟩
  · exact h.1 1 ["x"] "x" (by decide)
  · exact h.2.2.1 [{ Name := "file" }] ["--file", "x"] [("file", .str "x")] "file" (.str "x")
      (by simp +decide [Parser.Parse, ParseWithOrder, NewParser, scanTokens, collectArgs,
        coerceArgs, collectTokens, mapLookup, mapInsert, checkRequired, goHasPrefix])
      (by decide)
  · exact h.2.2.2 _ _ ["-5"] "-5" (by decide)

theorem coerceArgs_shape {dfn : ArgDef} {vs : List String} {v : Value}
    (h : coerceArgs dfn vs = .ok v) :
    (vs.length = 1 → v.isScalar = true) ∧
    (vs.length ≠ 1 → v.seqLength = some vs.length) ∧
    (dfn.type' = .string →
      (vs.length ≠ 1 → v = .strList vs) ∧ ∀ x, vs = [x] → v = .str x) ∧
    (dfn.type' = .int → ∃ ns, List.Forall₂ (fun s m => goAtoi s = some m) vs ns ∧
      (vs.length = 1 → ∃ n, ns = [n] ∧ v = .int n) ∧
      (vs.length ≠ 1 → v = .intList ns)) ∧
    (dfn.type' = .float →
      (vs.length ≠ 1 → v = .floatList vs) ∧ ∀ x, vs = [x] → v = .float x) := by
  unfold coerceArgs at h
  split at h
  · exact Except.noConfusion h
  · split at h
    · -- Int
      rename_i htype
      cases hi : coerceInts dfn.Name vs with
      | error e => rw [hi] at h; exact Except.noConfusion h
      | ok ns =>
        simp only [hi] at h
        have hlen : vs.length = ns.length := (coerceInts_forall2 hi).length_eq
        cases ns with
        | nil =>
          simp only [Except.ok.injEq] at h
          subst h
          refine ⟨fun h1 => absurd (hlen ▸ h1) (by simp), fun _ => by
            simp [Value.seqLength, hlen], fun hs => absurd (hs ▸ htype) (by simp [htype]),
            fun _ => ⟨[], coerceInts_forall2 hi, ?_, fun _ => rfl⟩,
            fun hf => absurd (hf ▸ htype) (by simp [htype])⟩
          intro h1
          exact absurd (hlen ▸ h1) (by simp)
        | cons n tail =>
          cases tail with
          | nil =>
            simp only [Except.ok.injEq] at h
            subst h
            refine ⟨fun _ => rfl, fun h1 => absurd hlen (by simpa using h1),
              fun hs => absurd (hs ▸ htype) (by simp [htype]),
              fun _ => ⟨[n], coerceInts_forall2 hi, fun _ => ⟨n, rfl, rfl⟩,
                fun h1 => absurd hlen (by simpa using h1)⟩,
              fun hf => absurd (hf ▸ htype) (by simp [htype])⟩
          | cons n2 tail2 =>
            simp only [Except.ok.injEq] at h
            subst h
            refine ⟨fun h1 => absurd (hlen ▸ h1) (by simp), fun _ => by
              simp [Value.seqLength, hlen],
              fun hs => absurd (hs ▸ htype) (by simp [htype]),
              fun _ => ⟨n :: n2 :: tail2, coerceInts_forall2 hi,
                fun h1 => absurd (hlen ▸ h1) (by simp), fun _ => rfl⟩,
              fun hf => absurd (hf ▸ htype) (by simp [htype])⟩
    · -- Float
      rename_i htype
      cases hf : coerceFloats dfn.Name vs with
      | error e => rw [hf] at h; exact Except.noConfusion h
      | ok fs =>
        simp only [hf] at h
        have hfs : fs = vs := coerceFloats_ok_eq hf
        subst hfs
        cases fs with
        | nil =>
          simp only [Except.ok.injEq] at h
          subst h
          exact ⟨fun h1 => absurd h1 (by simp), fun _ => rfl,
            fun hs => absurd (hs ▸ htype) (by simp [htype]),
            fun hi => absurd (hi ▸ htype) (by simp [htype]),
            fun _ => ⟨fun _ => rfl, fun x hx => by simp at hx⟩⟩
        | cons f tail =>
          cases tail with
          | nil =>
            simp only [Except.ok.injEq] at h
            subst h
            exact ⟨fun _ => rfl, fun h1 => (h1 rfl).elim,
              fun hs => absurd (hs ▸ htype) (by simp [htype]),
              fun hi => absurd (hi ▸ htype) (by simp [htype]),
              fun _ => ⟨fun h1 => (h1 rfl).elim,
                fun x hx => by rw [(by simpa using hx : f = x)]⟩⟩
          | cons f2 tail2 =>
            simp only [Except.ok.injEq] at h
            subst h
            exact ⟨fun h1 => absurd h1 (by simp), fun _ => by simp [Value.seqLength],
              fun hs => absurd (hs ▸ htype) (by simp [htype]),
              fun hi => absurd (hi ▸ htype) (by simp [htype]),
              fun _ => ⟨fun _ => rfl, fun x hx => by simp at hx⟩⟩
    · -- String
      rename_i htype
      cases vs with
      | nil =>
        simp only [Except.ok.injEq] at h
        subst h
        exact ⟨fun h1 => absurd h1 (by simp), fun _ => rfl,
          fun _ => ⟨fun _ => rfl, fun x hx => by simp at hx⟩,
          fun hi => absurd (hi ▸ htype) (by simp [htype]),
          fun hf => absurd (hf ▸ htype) (by simp [htype])⟩
      | cons s tail =>
        cases tail with
        | nil =>
          simp only [Except.ok.injEq] at h
          subst h
          exact ⟨fun _ => rfl, fun h1 => (h1 rfl).elim,
            fun _ => ⟨fun h1 => (h1 rfl).elim,
              fun x hx => by rw [(by simpa using hx : s = x)]⟩,
            fun hi => absurd (hi ▸ htype) (by simp [htype]),
            fun hf => absurd (hf ▸ htype) (by simp [htype])⟩
        | cons s2 tail2 =>
          simp only [Except.ok.injEq] at h
          subst h
          exact ⟨fun h1 => absurd h1 (by simp), fun _ => by simp [Value.seqLength],
            fun _ => ⟨fun _ => rfl, fun x hx => by simp at hx⟩,
            fun hi => absurd (hi ▸ htype) (by simp [htype]),
            fun hf => absurd (hf ▸ htype) (by simp [htype])⟩

/-- C7: for a successfully collected argument, exactly one collected value
token yields the bare scalar; any other count yields the ordered sequence
of coerced scalars in collection order, zero tokens giving the empty
sequence; and every value stored by a successful parse on a fresh parser
is a bare scalar or a sequence. -/
theorem C7_result_shape :
    (∀ (dfn : ArgDef) (argv : List String) (v : Value) (rest : List String),
      collectArgs argv dfn = .ok (v, rest) →
      ((collectTokens dfn.NumArgs argv).1.length = 1 → v.isScalar = true) ∧
      ((collectTokens dfn.NumArgs argv).1.length ≠ 1 →
        v.seqLength = some (collectTokens dfn.NumArgs argv).1.length) ∧
      (dfn.type' = .string → ((collectTokens dfn.NumArgs argv).1.length ≠ 1 →
        v = .strList (collectTokens dfn.NumArgs argv).1) ∧
        ∀ x, (collectTokens dfn.NumArgs argv).1 = [x] → v = .str x) ∧
      (dfn.type' = .int → ∃ ns,
        List.Forall₂ (fun s m => goAtoi s = some m) (collectTokens dfn.NumArgs argv).1 ns ∧
        ((collectTokens dfn.NumArgs argv).1.length = 1 → ∃ n, ns = [n] ∧ v = .int n) ∧
        ((collectTokens dfn.NumArgs argv).1.length ≠ 1 → v = .intList ns)) ∧
      (dfn.type' = .float → ((collectTokens dfn.NumArgs argv).1.length ≠ 1 →
        v = .floatList (collectTokens dfn.NumArgs argv).1) ∧
        ∀ x, (collectTokens dfn.NumArgs argv).1 = [x] → v = .float x)) ∧
    (∀ (args : List ArgDef) (ts : List String) (m : List (String × Value))
      (k : String) (v : Value),
      Parser.Parse (NewParser args) ts = .ok m → mapLookup m k = some v →
      v.isScalar = true ∨ (v.seqLength).isSome = true) := by
  constructor
  · intro dfn argv v rest h
    unfold collectArgs at h
    split at h
    · exact Except.noConfusion h
    · rename_i val hval
      simp only [Except.ok.injEq, Prod.mk.injEq] at h
      rw [← h.1]
      exact coerceArgs_shape hval
  · intro args ts m k v hok hkv
    obtain ⟨st', hs, hc, rfl⟩ := ParseWithOrder_ok_inv hok
    rw [NewParser_parsed] at hs
    obtain ⟨-, -, -, -, iprov⟩ :=
      scanTokens_ok_facts (NewParser args) ts.length ts _ _ (le_refl _) hs
    rcases iprov k v hkv with hinit | ⟨dfn, argvp, hco⟩
    · simp [mapLookup] at hinit
    · obtain ⟨hscal, hseq, -⟩ := coerceArgs_shape hco
      by_cases hlen : (collectTokens dfn.NumArgs argvp).1.length = 1
      · exact .inl (hscal hlen)
      · exact .inr (by simp [hseq hlen])

/-- C7 witness: arity-3 string argument given two value tokens stores the
ordered pair; instantiated at a concrete `collectArgs` run and a concrete
parse. -/
theorem C7_witness :
    collectArgs ["a", "b"] { Name := "tags", NumArgs := 3, type' := .string } =
      .ok (.strList ["a", "b"], []) ∧
    (Value.strList ["a", "b"]).seqLength = some 2 ∧
    (Value.str "x").isScalar = true := by
  have h := C7_result_shape
  have hco : collectArgs ["a", "b"] { Name := "tags", NumArgs := 3, type' := .string } =
      .ok (.strList ["a", "b"], []) := by
    simp +decide [collectArgs, coerceArgs, collectTokens, goHasPrefix]
  have hB := h.2 [{ Name := "file" }] ["--file", "x"] [("file", .str "x")] "file" (.str "x")
    (by simp +decide [Parser.Parse, ParseWithOrder, NewParser, scanTokens, collectArgs,
      coerceArgs, collectTokens, mapLookup, mapInsert, checkRequired, goHasPrefix])
    (by decide)
  have hA := (h.1 { Name := "tags", NumArgs := 3, type' := .string } ["a", "b"]
    (.strList ["a", "b"]) [] hco).2.1 (by decide)
  refine ⟨hco, ?_, ?_⟩
  · simpa using hA
  · rcases hB with hB | hB
    · exact hB
    · exact absurd hB (by decide)

theorem collectTokens_fst_length_le (n : Nat) (l : List String) :
    (collectTokens n l).1.length ≤ n := by
  induction n generalizing l with
  | zero => simp [collectTokens]
  | succ n ih =>
    cases l with
    | nil => simp [collectTokens]
    | cons a rest =>
      simp only [collectTokens]
      split
      · simp
      · simp only [List.cons, List.length_cons]
        exact Nat.succ_le_succ (ih rest)

theorem coerceArgs_int_error {d : ArgDef} {vs : List String} {w : String}
    (htype : d.type' = .int) (hlen : vs.length ≤ d.NumArgs)
    (hw : w ∈ vs) (hbad : goAtoi w = none) :
    ∃ u ∈ vs, goAtoi u = none ∧ coerceArgs d vs = .error (.expectsInt d.Name u) := by
  obtain ⟨u, hu, hbu, herr⟩ := @coerceInts_error_first d.Name vs w hw hbad
  refine ⟨u, hu, hbu, ?_⟩
  unfold coerceArgs
  have hcond : (!d.AcceptOverArgs && decide (d.NumArgs < vs.length)) = false := by
    have : ¬(d.NumArgs < vs.length) := Nat.not_lt.mpr hlen
    simp [this]
  rw [hcond]
  simp only [Bool.false_eq_true, if_false, reduceIte, htype, herr]

/-- The single scan step at a flag token that resolves to an unused
Int-typed definition whose collected values contain a non-integer token:
it yields the type-coercion error carrying the first offending token. -/
theorem scanTokens_int_error {p : Parser} {st : ScanState} {t : String}
    {rest : List String} {n : String} {d : ArgDef} {w : String}
    (hres : resolveFlag p t = some n)
    (hdef : (mapLookup p.defs n).getD default = d)
    (htype : d.type' = .int)
    (hnotused : n ∉ st.used)
    (hw : w ∈ (collectTokens d.NumArgs rest).1)
    (hbad : goAtoi w = none) :
    ∃ u ∈ (collectTokens d.NumArgs rest).1, goAtoi u = none ∧
      scanTokens p st (t :: rest) = .error (.expectsInt d.Name u) := by
  obtain ⟨u, hu, hbu, herr⟩ := coerceArgs_int_error htype
    (collectTokens_fst_length_le _ _) hw hbad
  refine ⟨u, hu, hbu, ?_⟩
  have hc : st.used.contains n = false := by simpa using hnotused
  unfold resolveFlag at hres
  by_cases h1 : goHasPrefix t "--"
  · rw [if_pos h1] at hres
    cases h2 : mapLookup p.defs (t.drop 2) with
    | none => rw [h2] at hres; exact Option.noConfusion hres
    | some dfn0 =>
      rw [h2] at hres
      simp only [Option.some.injEq] at hres
      subst hres
      rw [h2] at hdef
      simp only [Option.getD_some] at hdef
      subst hdef
      simp only [scanTokens, h1, h2, if_true, reduceIte, hc, Bool.false_eq_true,
        if_false, herr]
  · rw [if_neg h1] at hres
    by_cases h5 : goHasPrefix t "-"
    · rw [if_pos h5] at hres
      by_cases h6 : (t.drop 1).utf8ByteSize > 1
      · rw [if_pos h6] at hres; exact Option.noConfusion hres
      · rw [if_neg h6] at hres
        simp only [scanTokens, h1, h5, h6, hres, if_true, if_false, reduceIte,
          Bool.false_eq_true, hc, hdef, herr]
    · rw [if_neg h5] at hres
      exact Option.noConfusion hres

/-- C6: when the scanner reaches (after an error-free prefix) a flag token
resolving to an Int-typed definition and some collected value token fails
integer parsing, the whole parse returns the type-coercion error carrying
the (first) offending token, and no result map is returned. -/
theorem C6_int_coercion_failure (p : Parser) (pre : List String) (t : String)
    (rest : List String) (st : ScanState) (n : String) (d : ArgDef) (w : String)
    (hscan : scanTokens p ⟨[], p.parsed⟩ pre = .ok st)
    (hres : resolveFlag p t = some n)
    (hdash : goHasPrefix t "-" = true)
    (hdef : (mapLookup p.defs n).getD default = d)
    (htype : d.type' = .int)
    (hnotused : n ∉ st.used)
    (hw : w ∈ (collectTokens d.NumArgs rest).1)
    (hbad : goAtoi w = none) :
    ∃ u ∈ (collectTokens d.NumArgs rest).1, goAtoi u = none ∧
      Parser.Parse p (pre ++ t :: rest) = .error (.expectsInt d.Name u) := by
  obtain ⟨u, hu, hbu, hstep⟩ := scanTokens_int_error hres hdef htype hnotused hw hbad
  refine ⟨u, hu, hbu, ?_⟩
  have happ := @scanTokens_append (t :: rest) ⟨t, rest, rfl, hdash⟩ p
    pre.length pre ⟨[], p.parsed⟩ (le_refl _)
  rw [hscan] at happ
  simp only [] at happ
  rw [hstep] at happ
  exact ParseWithOrder_scan_error happ

/-- C6 witness: `--count abc` for an Int-typed `count` yields the
type-coercion error carrying `abc`. -/
theorem C6_witness :
    Parser.Parse (NewParser [{ Name := "count", type' := .int }]) ["--count", "abc"] =
      .error (.expectsInt "count" "abc") := by
  have h := C6_int_coercion_failure (NewParser [{ Name := "count", type' := .int }])
    [] "--count" ["abc"] ⟨[], []⟩ "count"
    { Name := "count", NumArgs := 1, type' := .int } "abc"
    (by rw [NewParser_parsed]; simp [scanTokens])
    (by decide) (by decide) (by decide) rfl (by simp)
    (by decide) (by decide)
  obtain ⟨u, hu, hbu, hp⟩ := h
  have hueq : u = "abc" := by simpa +decide [collectTokens, goHasPrefix] using hu
  subst hueq
  exact hp

theorem coerceArgs_error_cases {dfn : ArgDef} {vs : List String} {e : ParseError}
    (h : coerceArgs dfn vs = .error e) :
    (∃ nm, e = .tooManyArguments nm) ∨ (∃ nm s, e = .expectsInt nm s) ∨
      (∃ nm s, e = .expectsFloat nm s) := by
  unfold coerceArgs at h
  split at h
  · simp only [Except.error.injEq] at h
    exact .inl ⟨dfn.Name, h.symm⟩
  · split at h
    · cases hi : coerceInts dfn.Name vs with
      | error e' =>
        simp only [hi, Except.error.injEq] at h
        subst h
        obtain ⟨s, hs⟩ := coerceInts_error_shape hi
        exact .inr (.inl ⟨dfn.Name, s, hs⟩)
      | ok ns =>
        simp only [hi] at h
        split at h <;> exact Except.noConfusion h
    · cases hf : coerceFloats dfn.Name vs with
      | error e' =>
        simp only [hf, Except.error.injEq] at h
        subst h
        obtain ⟨s, hs⟩ := coerceFloats_error_shape hf
        exact .inr (.inr ⟨dfn.Name, s, hs⟩)
      | ok fs =>
        simp only [hf] at h
        split at h <;> exact Except.noConfusion h
    · split at h <;> exact Except.noConfusion h

theorem coerceArgs_error_dupName {dfn : ArgDef} {vs : List String} {e : ParseError}
    (h : coerceArgs dfn vs = .error e) : e.duplicatedName = none := by
  rcases coerceArgs_error_cases h with ⟨nm, rfl⟩ | ⟨nm, s, rfl⟩ | ⟨nm, s, rfl⟩ <;> rfl

/-- The single scan step at a flag token resolving to an already-used long
name: the duplicate-argument error, naming that long name. -/
theorem scanTokens_duplicate {p : Parser} {st : ScanState} {t : String}
    {post : List String} {n : String}
    (hres : resolveFlag p t = some n) (hused : n ∈ st.used) :
    ∃ e, scanTokens p st (t :: post) = .error e ∧
      e.isDuplicateArgument = true ∧ e.duplicatedName = some n := by
  have hc : st.used.contains n = true := by simpa using hused
  unfold resolveFlag at hres
  by_cases h1 : goHasPrefix t "--"
  · rw [if_pos h1] at hres
    cases h2 : mapLookup p.defs (t.drop 2) with
    | none => rw [h2] at hres; exact Option.noConfusion hres
    | some dfn0 =>
      rw [h2] at hres
      simp only [Option.some.injEq] at hres
      subst hres
      exact ⟨.duplicateLong (t.drop 2), by
        simp only [scanTokens, h1, h2, if_true, reduceIte, hc], rfl, rfl⟩
  · rw [if_neg h1] at hres
    by_cases h5 : goHasPrefix t "-"
    · rw [if_pos h5] at hres
      by_cases h6 : (t.drop 1).utf8ByteSize > 1
      · rw [if_pos h6] at hres; exact Option.noConfusion hres
      · rw [if_neg h6] at hres
        exact ⟨.duplicateShort (t.drop 1) n, by
          simp only [scanTokens, h1, h5, h6, hres, if_true, if_false, reduceIte,
            Bool.false_eq_true, hc], rfl, rfl⟩
    · rw [if_neg h5] at hres
      exact Option.noConfusion hres

/-- A duplicate-argument error for `n` is only ever raised when `n` is
already in the used set or the remaining stream resolves `n` at least
twice. -/
theorem scanTokens_dup_count (p : Parser) (n : String) :
    ∀ (N : Nat) (ts : List String) (st : ScanState), ts.length ≤ N →
      ((n ∉ st.used ∧ ts.countP (fun t => resolveFlag p t == some n) ≤ 1) ∨
        ts.countP (fun t => resolveFlag p t == some n) = 0) →
      ∀ e, scanTokens p st ts = .error e → e.duplicatedName ≠ some n := by
  intro N
  induction N with
  | zero =>
    intro ts st hlen hinv e hok
    have hx : ts = [] := List.eq_nil_of_length_eq_zero (Nat.le_zero.mp hlen)
    subst hx
    simp [scanTokens] at hok
  | succ N ih =>
    intro ts st hlen hinv e herr
    cases ts with
    | nil => simp [scanTokens] at herr
    | cons a rest =>
      have hlen' : rest.length ≤ N := Nat.le_of_succ_le_succ hlen
      have hcount :
          (a :: rest).countP (fun t => resolveFlag p t == some n) =
            rest.countP (fun t => resolveFlag p t == some n) +
              (if resolveFlag p a == some n then 1 else 0) := by
        simp [List.countP_cons]
      by_cases h1 : goHasPrefix a "--"
      · cases h2 : mapLookup p.defs (a.drop 2) with
        | none =>
          simp only [scanTokens, h1, h2, if_true, reduceIte, Except.error.injEq] at herr
          subst herr
          simp [ParseError.duplicatedName]
        | some dfn =>
          have hresa : resolveFlag p a = some (a.drop 2) := by
            unfold resolveFlag
            rw [if_pos h1, h2]
          by_cases h3 : a.drop 2 ∈ st.used
          · have hc : st.used.contains (a.drop 2) = true := by simpa using h3
            simp only [scanTokens, h1, h2, if_true, reduceIte, hc,
              Except.error.injEq] at herr
            subst herr
            simp only [ParseError.duplicatedName, ne_eq, Option.some.injEq]
            intro hn
            subst hn
            rcases hinv with ⟨hnu, _⟩ | hz
            · exact hnu h3
            · rw [hcount] at hz
              simp [hresa] at hz
          · have hc : st.used.contains (a.drop 2) = false := by simpa using h3
            simp only [scanTokens, h1, h2, if_true, reduceIte, hc, Bool.false_eq_true,
              if_false] at herr
            cases h4 : coerceArgs dfn (collectTokens dfn.NumArgs rest).1 with
            | error e' =>
              rw [h4] at herr
              simp only [Except.error.injEq] at herr
              subst herr
              rw [coerceArgs_error_dupName h4]
              simp
            | ok val =>
              rw [h4] at herr
              refine ih _ _ (le_trans ((collectTokens_rest_suffix _ _).length_le) hlen')
                ?_ e herr
              have hsub : (collectTokens dfn.NumArgs rest).2.countP
                  (fun t => resolveFlag p t == some n) ≤
                    rest.countP (fun t => resolveFlag p t == some n) :=
                (collectTokens_rest_suffix _ _).sublist.countP_le _
              by_cases hmn : a.drop 2 = n
              · subst hmn
                rcases hinv with ⟨hnu, hle⟩ | hz
                · refine .inr (Nat.le_zero.mp ?_)
                  rw [hcount] at hle
                  simp only [hresa, beq_self_eq_true, if_true, reduceIte] at hle
                  omega
                · rw [hcount] at hz
                  simp [hresa] at hz
              · have hna : (resolveFlag p a == some n) = false := by
                  simp [hresa, hmn]
                rcases hinv with ⟨hnu, hle⟩ | hz
                · refine .inl ⟨?_, ?_⟩
                  · simp only [ScanState.used, List.mem_cons]
                    rintro (rfl | hmem)
                    · exact hmn rfl
                    · exact hnu hmem
                  · rw [hcount, hna] at hle
                    simpa using le_trans hsub (by simpa using hle)
                · refine .inr (Nat.le_zero.mp ?_)
                  rw [hcount, hna] at hz
                  simp only [if_false, Bool.false_eq_true, reduceIte, Nat.add_zero] at hz
                  omega
      · by_cases h5 : goHasPrefix a "-"
        · by_cases h6 : (a.drop 1).utf8ByteSize > 1
          · simp only [scanTokens, h1, h5, h6, Bool.false_eq_true, if_false, if_true,
              reduceIte, gt_iff_lt, Except.error.injEq] at herr
            subst herr
            simp [ParseError.duplicatedName]
          · cases h7 : mapLookup p.shortToLong (a.drop 1) with
            | none =>
              simp only [scanTokens, h1, h5, h6, h7, Bool.false_eq_true, if_false,
                if_true, reduceIte, gt_iff_lt, Except.error.injEq] at herr
              subst herr
              simp [ParseError.duplicatedName]
            | some name =>
              have hresa : resolveFlag p a = some name := by
                unfold resolveFlag
                rw [if_neg h1, if_pos h5, if_neg h6, h7]
              by_cases h8 : name ∈ st.used
              · have hc : st.used.contains name = true := by simpa using h8
                simp only [scanTokens, h1, h5, h6, h7, if_true, if_false, reduceIte,
                  Bool.false_eq_true, hc, Except.error.injEq] at herr
                subst herr
                simp only [ParseError.duplicatedName, ne_eq, Option.some.injEq]
                intro hn
                subst hn
                rcases hinv with ⟨hnu, _⟩ | hz
                · exact hnu h8
                · rw [hcount] at hz
                  simp [hresa] at hz
              · have hc : st.used.contains name = false := by simpa using h8
                simp only [scanTokens, h1, h5, h6, h7, if_true, if_false, reduceIte,
                  Bool.false_eq_true, hc] at herr
                cases h4 : coerceArgs ((mapLookup p.defs name).getD default)
                    (collectTokens ((mapLookup p.defs name).getD default).NumArgs rest).1 with
                | error e' =>
                  rw [h4] at herr
                  simp only [Except.error.injEq] at herr
                  subst herr
                  rw [coerceArgs_error_dupName h4]
                  simp
                | ok val =>
                  rw [h4] at herr
                  refine ih _ _
                    (le_trans ((collectTokens_rest_suffix _ _).length_le) hlen') ?_ e herr
                  have hsub : (collectTokens ((mapLookup p.defs name).getD
                      default).NumArgs rest).2.countP
                      (fun t => resolveFlag p t == some n) ≤
                        rest.countP (fun t => resolveFlag p t == some n) :=
                    (collectTokens_rest_suffix _ _).sublist.countP_le _
                  by_cases hmn : name = n
                  · subst hmn
                    rcases hinv with ⟨hnu, hle⟩ | hz
                    · refine .inr (Nat.le_zero.mp ?_)
                      rw [hcount] at hle
                      simp only [hresa, beq_self_eq_true, if_true, reduceIte] at hle
                      omega
                    · rw [hcount] at hz
                      simp [hresa] at hz
                  · have hna : (resolveFlag p a == some n) = false := by
                      simp [hresa, hmn]
                    rcases hinv with ⟨hnu, hle⟩ | hz
                    · refine .inl ⟨?_, ?_⟩
                      · simp only [ScanState.used, List.mem_cons]
                        rintro (rfl | hmem)
                        · exact hmn rfl
                        · exact hnu hmem
                      · rw [hcount, hna] at hle
                        simpa using le_trans hsub (by simpa using hle)
                    · refine .inr (Nat.le_zero.mp ?_)
                      rw [hcount, hna] at hz
                      simp only [if_false, Bool.false_eq_true, reduceIte,
                        Nat.add_zero] at hz
                      omega
        · simp only [scanTokens, h1, h5, Bool.false_eq_true, if_false, reduceIte,
            Except.error.injEq] at herr
          subst herr
          simp [ParseError.duplicatedName]

/-- C4: (i) when an error-free scan prefix has already used long name `n`
and the next token again resolves to `n` — by its long or its short
form — the parse returns a duplicate-argument error naming `n`; (ii) when
the stream resolves `n` at most once, no duplicate-argument error naming
`n` is ever returned, so the first occurrence never raises it. -/
theorem C4_duplicate_argument :
    (∀ (p : Parser) (pre : List String) (t : String) (post : List String)
      (st : ScanState) (n : String),
      scanTokens p ⟨[], p.parsed⟩ pre = .ok st →
      resolveFlag p t = some n → goHasPrefix t "-" = true → n ∈ st.used →
      ∃ e, Parser.Parse p (pre ++ t :: post) = .error e ∧
        e.isDuplicateArgument = true ∧ e.duplicatedName = some n) ∧
    (∀ (p : Parser) (ts : List String) (n : String),
      ts.countP (fun t => resolveFlag p t == some n) ≤ 1 →
      ∀ e, Parser.Parse p ts = .error e → e.duplicatedName ≠ some n) := by
  constructor
  · intro p pre t post st n hscan hres hdash hused
    obtain ⟨e, hstep, hdup, hname⟩ := @scanTokens_duplicate p st t post n hres hused
    refine ⟨e, ?_, hdup, hname⟩
    have happ := @scanTokens_append (t :: post) ⟨t, post, rfl, hdash⟩ p
      pre.length pre ⟨[], p.parsed⟩ (le_refl _)
    rw [hscan] at happ
    simp only [] at happ
    rw [hstep] at happ
    exact ParseWithOrder_scan_error happ
  · intro p ts n hcount e herr hname
    unfold Parser.Parse at herr
    rcases ParseWithOrder_error_inv herr with hscanerr | ⟨st', hsok, hchk⟩
    · exact scanTokens_dup_count p n ts.length ts _ (le_refl _)
        (.inl ⟨by simp, hcount⟩) e hscanerr hname
    · obtain ⟨m, d, rfl, -, -⟩ := checkRequired_some_shape hchk
      simp [ParseError.duplicatedName] at hname

/-- C4 witness: `--a` then `-s` (the short form of `a`) yields the
duplicate-argument error for `a`. -/
theorem C4_witness :
    Parser.Parse (NewParser [{ Name := "a", Short := "s" }]) ["--a", "-s"] =
      .error (.duplicateShort "s" "a") ∧
    (ParseError.duplicateShort "s" "a").isDuplicateArgument = true ∧
    (ParseError.duplicateShort "s" "a").duplicatedName = some "a" := by
  obtain ⟨e, hp, hdup, hname⟩ := C4_duplicate_argument.1
    (NewParser [{ Name := "a", Short := "s" }]) ["--a"] "-s" []
    ⟨["a"], [("a", .strList [])]⟩ "a"
    (by simp +decide [NewParser, scanTokens, collectArgs, coerceArgs, collectTokens,
      mapLookup, mapInsert, goHasPrefix])
    (by decide) (by decide) (by decide)
  have hcomp : Parser.Parse (NewParser [{ Name := "a", Short := "s" }]) ["--a", "-s"] =
      .error (.duplicateShort "s" "a") := by
    simp +decide [Parser.Parse, ParseWithOrder, NewParser, scanTokens, collectArgs,
      coerceArgs, collectTokens, mapLookup, mapInsert, checkRequired, goHasPrefix]
  simp only [List.cons_append, List.nil_append] at hp
  rw [hcomp] at hp
  injection hp with he
  subst he
  exact ⟨hcomp, hdup, hname⟩

theorem keysNodup_mem_unique {α : Type} {m : List (String × α)} (hnd : KeysNodup m)
    {k : String} {v1 v2 : α} (h1 : (k, v1) ∈ m) (h2 : (k, v2) ∈ m) : v1 = v2 := by
  have e1 := mapLookup_unique hnd h1
  have e2 := mapLookup_unique hnd h2
  rw [e1] at e2
  injection e2

/-- C5: for a required definition with a waiver set, when the scan
succeeds without supplying it and every other definition passes the
required check: if some waiving argument was supplied the parse succeeds
with the required argument absent from the result; if no waiving argument
was supplied the parse reports it as the missing required argument. -/
theorem C5_conditional_requirement (args : List ArgDef) (ts : List String)
    (st : ScanState) (n : String) (d : ArgDef)
    (hscan : scanTokens (NewParser args) ⟨[], (NewParser args).parsed⟩ ts = .ok st)
    (hmem : mapLookup (NewParser args).defs n = some d)
    (hreq : d.Required = true)
    (hnotsup : n ∉ st.used)
    (hothers : ∀ ent ∈ (NewParser args).defs, ent.1 ≠ n →
      reqFails st.used st.parsed ent = false) :
    ((∃ w ∈ d.OptionalIfGiven, w ∈ st.used) →
      Parser.Parse (NewParser args) ts = .ok st.parsed ∧
        mapLookup st.parsed n = none) ∧
    ((∀ w ∈ d.OptionalIfGiven, w ∉ st.used) →
      Parser.Parse (NewParser args) ts = .error (.missingRequired n)) := by
  have hnd := NewParser_defs_nodup args
  have hdefmem : (n, d) ∈ (NewParser args).defs := mapLookup_mem hmem
  have habsent : mapLookup st.parsed n = none := by
    rw [NewParser_parsed] at hscan
    obtain ⟨-, -, inew, -, -⟩ :=
      scanTokens_ok_facts (NewParser args) ts.length ts _ _ (le_refl _) hscan
    cases hsome : (mapLookup st.parsed n).isSome with
    | true =>
      rcases inew n hsome with hini | hused
      · simp [mapLookup] at hini
      · exact absurd hused hnotsup
    | false => exact Option.not_isSome_iff_eq_none.mp (by simp [hsome])
  have huniq : ∀ ent ∈ (NewParser args).defs, ent.1 = n → ent.2 = d := by
    intro ent hent he
    obtain ⟨k, v⟩ := ent
    subst he
    exact keysNodup_mem_unique hnd hent hdefmem
  constructor
  · intro ⟨w, hw, hwu⟩
    have hwaive : (d.OptionalIfGiven.any fun opt => st.used.contains opt) = true := by
      rw [List.any_eq_true]
      exact ⟨w, hw, by simpa using hwu⟩
    have hall : ∀ ent ∈ (NewParser args).defs, reqFails st.used st.parsed ent = false := by
      intro ent hent
      by_cases he : ent.1 = n
      · have hd := huniq ent hent he
        obtain ⟨k, v⟩ := ent
        simp only at he hd
        subst he
        subst hd
        simp only [reqFails, hwaive, Bool.not_true, Bool.and_false]
      · exact hothers ent hent he
    have hchk : checkRequired (NewParser args).defs st.used st.parsed = none :=
      (checkRequired_none_iff _ _ _).mpr hall
    refine ⟨?_, habsent⟩
    unfold Parser.Parse ParseWithOrder
    rw [hscan]
    simp only []
    rw [hchk]
  · intro hnowaive
    have hwaive : (d.OptionalIfGiven.any fun opt => st.used.contains opt) = false := by
      rw [Bool.eq_false_iff]
      intro hany
      rw [List.any_eq_true] at hany
      obtain ⟨w, hw, hwc⟩ := hany
      exact hnowaive w hw (by simpa using hwc)
    have hfail : reqFails st.used st.parsed (n, d) = true := by
      simp only [reqFails, hreq, habsent, hwaive, Option.isNone_none, Bool.true_and,
        Bool.not_false, Bool.and_true]
    have hchk : checkRequired (NewParser args).defs st.used st.parsed =
        some (.missingRequired n) :=
      checkRequired_missing hdefmem hfail hothers huniq
    unfold Parser.Parse ParseWithOrder
    rw [hscan]
    simp only []
    rw [hchk]

/-- C5 witness: the spec's own scenario — `template` is required but
waived by `file`; supplying only `--file x` succeeds with `template`
absent from the result. -/
theorem C5_witness :
    Parser.Parse (NewParser
        [{ Name := "template", Required := true, OptionalIfGiven := ["file"] },
         { Name := "file" }]) ["--file", "x"] = .ok [("file", .str "x")] ∧
    mapLookup [("file", Value.str "x")] "template" = none := by
  have h := (C5_conditional_requirement
    [{ Name := "template", Required := true, OptionalIfGiven := ["file"] },
     { Name := "file" }]
    ["--file", "x"] ⟨["file"], [("file", .str "x")]⟩ "template"
    { Name := "template", NumArgs := 1, Required := true, OptionalIfGiven := ["file"] }
    (by rw [NewParser_parsed]
        simp +decide [NewParser, scanTokens, collectArgs, coerceArgs, collectTokens,
          mapLookup, mapInsert, goHasPrefix])
    (by decide) (by decide) (by decide) (by decide)).1
    ⟨"file", by decide, by decide⟩
  exact h

theorem checkRequired_perm_none {l1 l2 : List (String × ArgDef)} (hp : l1.Perm l2)
    (used : List String) (parsed : List (String × Value)) :
    checkRequired l1 used parsed = none ↔ checkRequired l2 used parsed = none := by
  rw [checkRequired_none_iff, checkRequired_none_iff]
  constructor
  · intro h ent hent
    exact h ent (hp.mem_iff.mpr hent)
  · intro h ent hent
    exact h ent (hp.mem_iff.mp hent)

/-- C3 counterexample: with two unconditionally required definitions and
an empty token stream, the error reported by the final required-check
depends on the iteration order of the definitions map; Go leaves map
iteration order unspecified (and actively randomises it), so two runs
over the same definitions and the same tokens can report different
errors. -/
theorem C3_counterexample :
    ParseWithOrder
      (NewParser [{ Name := "a", Required := true }, { Name := "b", Required := true }])
      (NewParser [{ Name := "a", Required := true },
        { Name := "b", Required := true }]).defs [] = .error (.missingRequired "a") ∧
    ParseWithOrder
      (NewParser [{ Name := "a", Required := true }, { Name := "b", Required := true }])
      (NewParser [{ Name := "a", Required := true },
        { Name := "b", Required := true }]).defs.reverse [] =
      .error (.missingRequired "b") ∧
    (NewParser [{ Name := "a", Required := true },
      { Name := "b", Required := true }]).defs.reverse.Perm
      (NewParser [{ Name := "a", Required := true },
        { Name := "b", Required := true }]).defs := by
  refine ⟨?_, ?_, List.reverse_perm _⟩ <;>
    simp +decide [ParseWithOrder, NewParser, scanTokens, checkRequired, mapLookup,
      mapInsert, reqFails]

/-- C3, amended: the scan phase and the success/failure of the required
check are a pure function of the registry and the token stream — for any
two iteration orders of the definitions map the parse succeeds with the
same value mapping, or fails in both orders — but the identity of the
reported error may differ between orders (see the counterexample). -/
theorem C3_deterministic_up_to_order (args : List ArgDef) (ts : List String)
    (l1 l2 : List (String × ArgDef))
    (h1 : l1.Perm (NewParser args).defs) (h2 : l2.Perm (NewParser args).defs) :
    (∀ m, ParseWithOrder (NewParser args) l1 ts = .ok m ↔
      ParseWithOrder (NewParser args) l2 ts = .ok m) ∧
    (∀ e1, ParseWithOrder (NewParser args) l1 ts = .error e1 →
      ∃ e2, ParseWithOrder (NewParser args) l2 ts = .error e2) := by
  have hperm : l1.Perm l2 := h1.trans h2.symm
  cases hs : scanTokens (NewParser args) ⟨[], (NewParser args).parsed⟩ ts with
  | error e =>
    have e1 := @ParseWithOrder_scan_error (NewParser args) l1 ts e hs
    have e2 := @ParseWithOrder_scan_error (NewParser args) l2 ts e hs
    constructor
    · intro m
      rw [e1, e2]
    · intro e1' he1
      exact ⟨e, e2⟩
  | ok st =>
    cases hc1 : checkRequired l1 st.used st.parsed with
    | none =>
      have hc2 : checkRequired l2 st.used st.parsed = none :=
        (checkRequired_perm_none hperm _ _).mp hc1
      have p1 : ParseWithOrder (NewParser args) l1 ts = .ok st.parsed := by
        unfold ParseWithOrder
        rw [hs]
        simp only []
        rw [hc1]
      have p2 : ParseWithOrder (NewParser args) l2 ts = .ok st.parsed := by
        unfold ParseWithOrder
        rw [hs]
        simp only []
        rw [hc2]
      constructor
      · intro m
        rw [p1, p2]
      · intro e1' he1
        rw [p1] at he1
        exact Except.noConfusion he1
    | some e =>
      have hc2 : checkRequired l2 st.used st.parsed ≠ none := by
        intro hnone
        rw [(checkRequired_perm_none hperm _ _).mpr hnone] at hc1
        exact Option.noConfusion hc1
      obtain ⟨e2, he2⟩ : ∃ e2, checkRequired l2 st.used st.parsed = some e2 := by
        cases hx : checkRequired l2 st.used st.parsed with
        | none => exact absurd hx hc2
        | some e2 => exact ⟨e2, rfl⟩
      have p1 : ParseWithOrder (NewParser args) l1 ts = .error e := by
        unfold ParseWithOrder
        rw [hs]
        simp only []
        rw [hc1]
      have p2 : ParseWithOrder (NewParser args) l2 ts = .error e2 := by
        unfold ParseWithOrder
        rw [hs]
        simp only []
        rw [he2]
      constructor
      · intro m
        rw [p1, p2]
        constructor <;> (intro h; exact Except.noConfusion h)
      · intro e1' he1
        exact ⟨e2, p2⟩

/-- C3 witness: the identity permutation and the reversed order on a
registry with a single definition agree on the (successful) outcome. -/
theorem C3_witness :
    ParseWithOrder (NewParser [{ Name := "file" }])
      (NewParser [{ Name := "file" }]).defs ["--file", "x"] =
      .ok [("file", .str "x")] ↔
    ParseWithOrder (NewParser [{ Name := "file" }])
      (NewParser [{ Name := "file" }]).defs.reverse ["--file", "x"] =
      .ok [("file", .str "x")] := by
  exact (C3_deterministic_up_to_order [{ Name := "file" }] ["--file", "x"]
    (NewParser [{ Name := "file" }]).defs
    (NewParser [{ Name := "file" }]).defs.reverse
    (List.Perm.refl _) (List.reverse_perm _)).1 [("file", .str "x")]

/-- The scanning loop never reports a missing required argument; that
error only arises in the post-scan required check. -/
theorem scanTokens_error_not_missing (p : Parser) :
    ∀ (N : Nat) (ts : List String) (st : ScanState) (e : ParseError) (nm : String),
      ts.length ≤ N → scanTokens p st ts = .error e → e ≠ .missingRequired nm := by
  intro N
  induction N with
  | zero =>
    intro ts st e nm hlen herr
    have hx : ts = [] := List.eq_nil_of_length_eq_zero (Nat.le_zero.mp hlen)
    subst hx
    simp [scanTokens] at herr
  | succ N ih =>
    intro ts st e nm hlen herr
    cases ts with
    | nil => simp [scanTokens] at herr
    | cons a rest =>
      have hlen' : rest.length ≤ N := Nat.le_of_succ_le_succ hlen
      by_cases h1 : goHasPrefix a "--"
      · cases h2 : mapLookup p.defs (a.drop 2) with
        | none =>
          simp only [scanTokens, h1, h2, if_true, reduceIte, Except.error.injEq] at herr
          subst herr
          simp
        | some dfn =>
          by_cases h3 : a.drop 2 ∈ st.used
          · have hc : st.used.contains (a.drop 2) = true := by simpa using h3
            simp only [scanTokens, h1, h2, if_true, reduceIte, hc,
              Except.error.injEq] at herr
            subst herr
            simp
          · have hc : st.used.contains (a.drop 2) = false := by simpa using h3
            simp only [scanTokens, h1, h2, if_true, reduceIte, hc, Bool.false_eq_true,
              if_false] at herr
            cases h4 : coerceArgs dfn (collectTokens dfn.NumArgs rest).1 with
            | error e' =>
              rw [h4] at herr
              simp only [Except.error.injEq] at herr
              subst herr
              rcases coerceArgs_error_cases h4 with ⟨x, rfl⟩ | ⟨x, s, rfl⟩ | ⟨x, s, rfl⟩ <;>
                simp
            | ok val =>
              rw [h4] at herr
              exact ih _ _ e nm
                (le_trans ((collectTokens_rest_suffix _ _).length_le) hlen') herr
      · by_cases h5 : goHasPrefix a "-"
        · by_cases h6 : (a.drop 1).utf8ByteSize > 1
          · simp only [scanTokens, h1, h5, h6, Bool.false_eq_true, if_false, if_true,
              reduceIte, gt_iff_lt, Except.error.injEq] at herr
            subst herr
            simp
          · cases h7 : mapLookup p.shortToLong (a.drop 1) with
            | none =>
              simp only [scanTokens, h1, h5, h6, h7, Bool.false_eq_true, if_false,
                if_true, reduceIte, gt_iff_lt, Except.error.injEq] at herr
              subst herr
              simp
            | some name =>
              by_cases h8 : name ∈ st.used
              · have hc : st.used.contains name = true := by simpa using h8
                simp only [scanTokens, h1, h5, h6, h7, if_true, if_false, reduceIte,
                  Bool.false_eq_true, hc, Except.error.injEq] at herr
                subst herr
                simp
              · have hc : st.used.contains name = false := by simpa using h8
                simp only [scanTokens, h1, h5, h6, h7, if_true, if_false, reduceIte,
                  Bool.false_eq_true, hc] at herr
                cases h4 : coerceArgs ((mapLookup p.defs name).getD default)
                    (collectTokens ((mapLookup p.defs name).getD default).NumArgs rest).1 with
                | error e' =>
                  rw [h4] at herr
                  simp only [Except.error.injEq] at herr
                  subst herr
                  rcases coerceArgs_error_cases h4 with ⟨x, rfl⟩ | ⟨x, s, rfl⟩ |
                    ⟨x, s, rfl⟩ <;> simp
                | ok val =>
                  rw [h4] at herr
                  exact ih _ _ e nm
                    (le_trans ((collectTokens_rest_suffix _ _).length_le) hlen') herr
        · simp only [scanTokens, h1, h5, Bool.false_eq_true, if_false, reduceIte,
            Except.error.injEq] at herr
          subst herr
          simp

theorem C9_parsed_persists (args : List ArgDef) (ts1 ts2 : List String)
    (m1 : List (String × Value))
    (h1 : Parser.Parse (NewParser args) ts1 = .ok m1) :
    (∀ n v m2, mapLookup m1 n = some v →
      Parser.Parse { NewParser args with parsed := m1 } ts2 = .ok m2 →
      (mapLookup m2 n).isSome = true) ∧
    (∀ n v st2, mapLookup m1 n = some v →
      scanTokens { NewParser args with parsed := m1 } ⟨[], m1⟩ ts2 = .ok st2 →
      n ∉ st2.used → mapLookup st2.parsed n = some v) ∧
    (∀ n d, mapLookup (NewParser args).defs n = some d → d.Required = true →
      (mapLookup m1 n).isSome = true →
      Parser.Parse { NewParser args with parsed := m1 } ts2 ≠
        .error (.missingRequired n)) := by
  refine ⟨?_, ?_, ?_⟩
  · intro n v m2 hn hok
    obtain ⟨st2, hs, hc, rfl⟩ := ParseWithOrder_ok_inv hok
    obtain ⟨-, -, -, imono, -⟩ :=
      scanTokens_ok_facts { NewParser args with parsed := m1 } ts2.length ts2 _ _
        (le_refl _) hs
    exact imono n (by simp [hn])
  · intro n v st2 hn hs hnu
    obtain ⟨-, istable, -, -, -⟩ :=
      scanTokens_ok_facts { NewParser args with parsed := m1 } ts2.length ts2 _ _
        (le_refl _) hs
    rw [istable n hnu]
    exact hn
  · intro n d hdef hreq hsome herr
    unfold Parser.Parse at herr
    rcases ParseWithOrder_error_inv herr with hscanerr | ⟨st2, hsok, hchk⟩
    · exact scanTokens_error_not_missing _ ts2.length ts2 _ _ n (le_refl _) hscanerr rfl
    · obtain ⟨m, d', hme, hmem, hfl⟩ := checkRequired_some_shape hchk
      have hm : m = n := by injection hme.symm
      subst hm
      obtain ⟨-, -, -, imono, -⟩ :=
        scanTokens_ok_facts { NewParser args with parsed := m1 } ts2.length ts2 _ _
          (le_refl _) hsok
      have hsome2 : (mapLookup st2.parsed m).isSome = true := imono m hsome
      simp only [reqFails] at hfl
      rw [Bool.and_eq_true_iff] at hfl
      rw [Bool.and_eq_true_iff] at hfl
      have : (mapLookup st2.parsed m).isNone = true := hfl.1.2
      rw [Option.isNone_iff_eq_none] at this
      rw [this] at hsome2
      exact Bool.noConfusion hsome2

/-- C9 witness: after `--a v` succeeds, a second call with the empty
stream keeps `a ↦ "v"` and does not report `a` missing. -/
theorem C9_witness :
    (mapLookup [("a", Value.str "v")] "a").isSome = true ∧
    mapLookup [("a", Value.str "v")] "a" = some (.str "v") ∧
    Parser.Parse { NewParser [{ Name := "a", Required := true }] with
      parsed := [("a", Value.str "v")] } [] ≠ .error (.missingRequired "a") := by
  have h := C9_parsed_persists [{ Name := "a", Required := true }] ["--a", "v"] []
    [("a", .str "v")]
    (by simp +decide [Parser.Parse, ParseWithOrder, NewParser, scanTokens, collectArgs,
      coerceArgs, collectTokens, mapLookup, mapInsert, checkRequired, goHasPrefix])
  refine ⟨?_, ?_, ?_⟩
  · exact h.1 "a" (.str "v") [("a", .str "v")] (by decide)
      (by simp +decide [Parser.Parse, ParseWithOrder, NewParser, scanTokens,
        checkRequired, mapLookup, mapInsert])
  · exact h.2.1 "a" (.str "v") ⟨[], [("a", .str "v")]⟩ (by decide)
      (by simp [scanTokens]) (by decide)
  · exact h.2.2 "a" { Name := "a", NumArgs := 1, Required := true } (by decide)
      (by decide) (by decide)

end Uargs
